import Mathlib

/-!
# codetalks: the scanner (`internal/scanner/scan.go`) and the output selector

A shallow embedding of the traversal and filtering engine, of its
configuration (`Config`) and of `output.Output`.  Go strings are
embedded as `String` and handled through their character lists; the path
functions of the Go standard library are embedded for Unix, where
`os.PathSeparator` is `/` (an ASCII character, so working on characters
instead of bytes does not change where a path is cut).

The package-level variables of `scan.go` become the fields of `ScanState`,
threaded explicitly through `handler`, the directory walk and `Scan`.  What the
scanner only reads from its collaborators (the supported-language registry,
the code-file constructor, the view mode, the file system) is gathered in
`Env`; the regular-expression engine behind `Config` is a `regexp.Engine`.
Debug printing is observational and is left out.
-/

set_option autoImplicit false

/-! ## Go standard library: `strings` -/

namespace strings

/-- Go `strings.HasPrefix(s, prefix)`. -/
def HasPrefix (s pre : String) : Bool :=
  pre.data.isPrefixOf s.data

/-- Go `strings.TrimPrefix(s, prefix)`: `s` without the leading `prefix`, or `s`
itself when it does not start with it. -/
def TrimPrefix (s pre : String) : String :=
  if HasPrefix s pre then ⟨s.data.drop pre.data.length⟩ else s

/-- Go `strings.HasSuffix(s, suffix)`. -/
def HasSuffix (s suf : String) : Bool :=
  suf.data.reverse.isPrefixOf s.data.reverse

/-- Go `strings.TrimSuffix(s, suffix)`. -/
def TrimSuffix (s suf : String) : String :=
  if HasSuffix s suf then ⟨s.data.take (s.data.length - suf.data.length)⟩ else s

/-- Go `unicode.IsSpace`: the Unicode white space characters. -/
def isSpace (c : Char) : Bool :=
  let n := c.toNat
  (9 ≤ n ∧ n ≤ 13) ∨ n = 32 ∨ n = 0x85 ∨ n = 0xA0 ∨ n = 0x1680 ∨
    (0x2000 ≤ n ∧ n ≤ 0x200A) ∨ n = 0x2028 ∨ n = 0x2029 ∨ n = 0x202F ∨
    n = 0x205F ∨ n = 0x3000

/-- Go `strings.TrimSpace`: the string without leading and trailing white
space. -/
def TrimSpace (s : String) : String :=
  ⟨((s.data.dropWhile isSpace).reverse.dropWhile isSpace).reverse⟩

/-- The loop of Go `strings.Split` for a non-empty separator: `skip` counts the
characters of a separator just found that are still to be passed, `cur` is
the piece being read, reversed. -/
def splitLoop (sep : List Char) : List Char → Nat → List Char → List (List Char)
  | [], _, cur => [cur.reverse]
  | _ :: rest, skip + 1, cur => splitLoop sep rest skip cur
  | c :: rest, 0, cur =>
    if sep.isPrefixOf (c :: rest) then cur.reverse :: splitLoop sep rest (sep.length - 1) []
    else splitLoop sep rest 0 (c :: cur)

/-- Go `strings.Split(s, sep)`: the pieces of `s` between the occurrences of
`sep`, empty pieces included; with an empty separator, the characters of `s`. -/
def Split (s sep : String) : List String :=
  if sep.data = [] then s.data.map (fun c => ⟨[c]⟩)
  else (splitLoop sep.data s.data 0 []).map (fun piece => ⟨piece⟩)

/-- The loop of Go `strings.Fields`; `cur` is the field being read, reversed. -/
def fieldsLoop : List Char → List Char → List (List Char)
  | [], cur => if cur = [] then [] else [cur.reverse]
  | c :: rest, cur =>
    if isSpace c then
      if cur = [] then fieldsLoop rest [] else cur.reverse :: fieldsLoop rest []
    else fieldsLoop rest (c :: cur)

/-- Go `strings.Fields(s)`: the non-empty pieces of `s` between runs of white
space. -/
def Fields (s : String) : List String :=
  (fieldsLoop s.data []).map (fun piece => ⟨piece⟩)

/-- Go `strings.Join(elems, sep)` on character lists: the elements with `sep`
between two of them. -/
def joinData (sep : List Char) : List (List Char) → List Char
  | [] => []
  | [elem] => elem
  | elem :: rest => elem ++ sep ++ joinData sep rest

/-- Go `strings.Join(elems, sep)`. -/
def Join (elems : List String) (sep : String) : String :=
  ⟨joinData sep.data (elems.map (fun e => e.data))⟩

end strings

/-! ## Go standard library: `path/filepath` (Unix) -/

namespace filepath

/-- The Unix path separator, `os.PathSeparator`. -/
def Separator : Char := '/'

/-- Go `os.IsPathSeparator` on Unix. -/
def IsPathSeparator (c : Char) : Bool := c == Separator

/-- Go `filepath.Base`: the last element of the path, after removing trailing
separators; `.` for the empty path and `/` for a path of separators only. -/
def Base (path : String) : String :=
  if path.data = [] then "."
  else
    let stripped := path.data.reverse.dropWhile IsPathSeparator
    let last := (stripped.takeWhile (fun c => !IsPathSeparator c)).reverse
    if last = [] then "/" else ⟨last⟩

/-- The loop of Go `filepath.Ext`, run over the reversed path: `acc` holds the
characters already passed, in path order. -/
def extLoop : List Char → List Char → List Char
  | [], _ => []
  | c :: rest, acc =>
    if IsPathSeparator c then []
    else if c = '.' then c :: acc
    else extLoop rest (c :: acc)

/-- Go `filepath.Ext`: the suffix beginning at the final dot of the final
element of the path; empty when there is no dot. -/
def Ext (path : String) : String :=
  ⟨extLoop path.data.reverse []⟩

/-- Go `filepath.Split`: the path cut right after its final separator, into a
directory part (separator included) and a file part. -/
def Split (path : String) : String × String :=
  let file := (path.data.reverse.takeWhile (fun c => !IsPathSeparator c)).reverse
  (⟨path.data.take (path.data.length - file.length)⟩, ⟨file⟩)

/-- The elements of a path: the pieces between separators, in order (empty
pieces included). `cur` is the piece being read, reversed. -/
def splitSep : List Char → List Char → List (List Char)
  | [], cur => [cur.reverse]
  | c :: rest, cur =>
    if IsPathSeparator c then cur.reverse :: splitSep rest []
    else splitSep rest (c :: cur)

/-- One step of Go `filepath.Clean` on the stack of kept elements (top first):
`..` removes the element before it, is dropped at the top of a rooted path and
is kept otherwise. -/
def cleanStep (rooted : Bool) (stack : List (List Char)) (elem : List Char) :
    List (List Char) :=
  if elem = [] ∨ elem = ['.'] then stack
  else if elem = ['.', '.'] then
    match stack with
    | [] => if rooted then [] else [elem]
    | top :: below => if top = ['.', '.'] then elem :: stack else below
  else elem :: stack

/-- The elements of a path put together again, with one separator between
two elements. -/
def joinSep : List (List Char) → List Char
  | [] => []
  | [elem] => elem
  | elem :: rest => elem ++ Separator :: joinSep rest

/-- Go `filepath.Clean`: the shortest path name equivalent to `path` by purely
lexical processing. -/
def Clean (path : String) : String :=
  let rooted := path.data.head? = some Separator
  let kept := ((splitSep path.data []).foldl (cleanStep rooted) []).reverse
  let body := joinSep kept
  if rooted then ⟨Separator :: body⟩
  else if body = [] then "." else ⟨body⟩

/-- Go `filepath.Join` for two elements: the elements from the first non-empty
one on are joined by a separator and the result is cleaned; the empty string
when both are empty. -/
def Join (a b : String) : String :=
  if a.data ≠ [] then Clean ⟨a.data ++ Separator :: b.data⟩
  else if b.data ≠ [] then Clean b
  else ""

/-- The names `os.ReadDir` can return for an entry: not empty, without a
separator, and neither `.` nor `..`. -/
def IsEntryName (name : String) : Prop :=
  name.data ≠ [] ∧ (∀ c ∈ name.data, IsPathSeparator c = false) ∧
    name.data ≠ ['.'] ∧ name.data ≠ ['.', '.']

end filepath

/-! ## Collaborators of the scanner -/

namespace fs

/-- Go `error` values seen by the walk: the two sentinels of `io/fs` and any
other error, kept by its message. A nil error is `none`. -/
inductive Error where
  | SkipDir
  | SkipAll
  | other (msg : String)
  deriving DecidableEq

/-- What the scanner reads of an `fs.DirEntry`. -/
structure DirEntry where
  Name : String
  IsDir : Bool
  deriving DecidableEq

end fs

namespace regexp

/-- A compiled `*regexp.Regexp`: its source text and its `MatchString` method.
The regular-expression engine is outside the repository; a matcher is taken
as given. -/
structure Regexp where
  source : String
  MatchString : String → Bool

/-- The regular-expression engine of the Go standard library, taken as given:
for a source text, the error of `regexp.Compile` if there is one, and what the
compiled expression matches. -/
structure Engine where
  compileErr : String → Option String
  MatchString : String → String → Bool

/-- Go `regexp.MustCompile(str)`: the compiled expression, whose source is
`str`; `none` stands for the panic on a text that does not compile. -/
def MustCompile (eng : Engine) (str : String) : Option Regexp :=
  match eng.compileErr str with
  | some _ => none
  | none => some ⟨str, eng.MatchString str⟩

end regexp

namespace ignore

/-- A compiled `*ignore.GitIgnore` of `sabhiram/go-gitignore`, by its
`MatchesPath` method. -/
structure GitIgnore where
  MatchesPath : String → Bool

end ignore

namespace utils

/-- Modelled from the spec: `utils.Set` of `internal/utils`, which is not among
the sources. The spec describes the seen-path index as a set of paths in which
a path is inserted at most once and later insertions are no-ops. -/
structure Set where
  items : List String
  deriving DecidableEq

/-- Modelled from the spec: `utils.NewSet`, the empty set. -/
def NewSet : Set := ⟨[]⟩

/-- Modelled from the spec: `(*utils.Set).Contains`, membership. -/
def Set.Contains (s : Set) (x : String) : Bool := decide (x ∈ s.items)

/-- Modelled from the spec: `(*utils.Set).Add`, insertion; inserting a member
again changes nothing. -/
def Set.Add (s : Set) (x : String) : Set :=
  if s.Contains x then s else ⟨s.items ++ [x]⟩

end utils

namespace file

/-- The handle made by `file.NewCodeFile(path)`, identified by the path it was
made from. -/
structure CodeFile where
  Path : String
  deriving DecidableEq

end file

namespace view_mode

/-- The values of `internal.GlobalOpts.ViewMode` the scanner tells apart:
`view_mode.ViewModeDirs`, and every other mode. -/
inductive ViewMode where
  | ViewModeDirs
  | ViewModeOther
  deriving DecidableEq

end view_mode

/-- A file-system tree as the walk reads it: a non-directory entry, or a
directory with the entries `os.ReadDir` returns for it (in the order returned)
and the error `os.ReadDir` reports, if any. -/
inductive FsNode where
  | file (name : String)
  | dir (name : String) (readErr : Option String) (children : List FsNode)

namespace FsNode

/-- The entry name of a node. -/
def name : FsNode → String
  | file n => n
  | dir n _ _ => n

end FsNode

/-- What the scanner reads from outside `scan.go`. -/
structure Env where
  /-- Whether `internal.SupportedLanguages[ext]` is non-nil. -/
  SupportedLanguages : String → Bool
  /-- The error of `file.NewCodeFile(path)`, `none` when the handle is made. -/
  newCodeFileErr : String → Option String
  /-- The value of `internal.GlobalOpts.ViewMode`. -/
  ViewMode : view_mode.ViewMode
  /-- The result of `ignore.CompileIgnoreFile(path)`: the matcher, or nil. -/
  CompileIgnoreFile : String → Option ignore.GitIgnore
  /-- The result of `os.Lstat(root)` together with the tree found there. -/
  Lstat : String → Except String FsNode

namespace file

/-- The call `file.NewCodeFile(path)`. -/
def NewCodeFile (env : Env) (path : String) : Except String CodeFile :=
  match env.newCodeFileErr path with
  | some e => .error e
  | none => .ok ⟨path⟩

end file

/-! ## The scanner -/

namespace scanner

/-- The package-level variables of `scan.go`, together with the two pieces of
state the scanner writes in other packages: `view_mode.SubDirs`, and the calls
`language.AddLanguage(fileExt, codeFile)` made so far, in order. -/
structure ScanState where
  uniqueDirSet : utils.Set
  matchRegex : List regexp.Regexp
  ignoreRegex : List regexp.Regexp
  currentRootDir : String
  gitIgnoreMap : String → Option ignore.GitIgnore
  SubDirs : List String
  AddLanguage : List (String × file.CodeFile)

/-- The set `vcsDirs` as `init` fills it; nothing writes to it afterwards. -/
def vcsDirs : utils.Set :=
  ((((utils.NewSet.Add ".git").Add ".svn").Add ".hg").Add ".bzr").Add ".cvs"

/-- The state after `init`: empty seen-path index, no patterns, empty
ignore-file map, nothing captured, nothing dispatched. -/
def init : ScanState where
  uniqueDirSet := utils.NewSet
  matchRegex := []
  ignoreRegex := []
  currentRootDir := ""
  gitIgnoreMap := fun _ => none
  SubDirs := []
  AddLanguage := []

/-- The loop `for _, regexStr := range ... { list = append(list,
regexp.MustCompile(regexStr)) }` of `Config`; `none` when a fragment makes
`regexp.MustCompile` panic. -/
def compileLoop (eng : regexp.Engine) : List String → List regexp.Regexp →
    Option (List regexp.Regexp)
  | [], list => some list
  | regexStr :: rest, list =>
    match regexp.MustCompile eng regexStr with
    | none => none
    | some re => compileLoop eng rest (list ++ [re])

/-- One of the two blocks of `Config`: the pattern string is trimmed and, when
something is left, split at every space and every piece compiled and appended
to the list. -/
def configList (eng : regexp.Engine) (regexStr : String) (list : List regexp.Regexp) :
    Option (List regexp.Regexp) :=
  let regexStr := strings.TrimSpace regexStr
  if regexStr.data.length > 0 then compileLoop eng (strings.Split regexStr " ") list
  else some list

/-- Source: `Config`. The result is `none` when `regexp.MustCompile` panics. -/
def Config (eng : regexp.Engine) (s : ScanState) (matchRegexStr ignoreRegexStr : String) :
    Option ScanState :=
  match configList eng matchRegexStr s.matchRegex with
  | none => none
  | some matchRegex =>
    match configList eng ignoreRegexStr s.ignoreRegex with
    | none => none
    | some ignoreRegex => some { s with matchRegex := matchRegex, ignoreRegex := ignoreRegex }

/-- Source: `isVCSDir`. -/
def isVCSDir (path : String) : Bool :=
  vcsDirs.Contains path

/-- The loop of `isSpecifiedDepthDirs`, run for at most `fuel` iterations:
the segments collected, or `none` when the iterations are used up before the
loop breaks. -/
def depthLoop : Nat → String → List String → Option (List String)
  | 0, _, _ => none
  | fuel + 1, path, segments =>
    let (dir, file) := filepath.Split path
    let trimedFile := strings.TrimSpace file
    let segments := if trimedFile ≠ "" then segments ++ [trimedFile] else segments
    if dir = "/" ∨ dir = "" then some segments
    else
      let dir := if strings.HasSuffix dir "/" then strings.TrimSuffix dir "/" else dir
      depthLoop fuel dir segments

/-- Source: `isSpecifiedDepthDirs`. Every iteration that does not break
shortens the path, so one iteration more than the length of the path is
enough for the loop. -/
def isSpecifiedDepthDirs (path : String) (depth : Int) : Bool :=
  match depthLoop (path.data.length + 1) path [] with
  | some segments => (segments.length : Int) == depth
  | none => false

/-- The test `gi != nil && gi.MatchesPath(cutRootDirPath)` on the ignore-file
matcher `gi := gitIgnoreMap[currentRootDir]`. -/
def gitIgnoreMatches (s : ScanState) (cutRootDirPath : String) : Bool :=
  match s.gitIgnoreMap s.currentRootDir with
  | some gi => gi.MatchesPath cutRootDirPath
  | none => false

/-- Source: `handler`, the callback of the walk. The result is the state after
the call and the error returned (`none` for nil). -/
def handler (env : Env) (s : ScanState) (path : String) (d : fs.DirEntry)
    (err : Option fs.Error) : ScanState × Option fs.Error :=
  match err with
  | some e => (s, some e)
  | none =>
    let leaf := filepath.Base path
    let cutRootDirPath := strings.TrimPrefix path s.currentRootDir
    if d.IsDir then
      if isVCSDir leaf then (s, some fs.Error.SkipDir)
      else
        let s1 :=
          if env.ViewMode = view_mode.ViewMode.ViewModeDirs ∧
              isSpecifiedDepthDirs cutRootDirPath 1 then
            { s with SubDirs := s.SubDirs ++ [cutRootDirPath] }
          else s
        if gitIgnoreMatches s1 cutRootDirPath then (s1, some fs.Error.SkipDir)
        else (s1, none)
    else
      let isMatched := s.matchRegex.any (fun re => re.MatchString cutRootDirPath)
      if s.matchRegex.length > 0 ∧ !isMatched then (s, none)
      else if !isMatched && gitIgnoreMatches s cutRootDirPath then (s, none)
      else if s.ignoreRegex.any (fun re => re.MatchString cutRootDirPath) then (s, none)
      else
        let fileExt := filepath.Ext leaf
        if !env.SupportedLanguages fileExt then (s, none)
        else if s.uniqueDirSet.Contains path then (s, none)
        else
          match file.NewCodeFile env path with
          | .error _ => (s, none)
          | .ok codeFile =>
            ({ s with
                AddLanguage := s.AddLanguage ++ [(fileExt, codeFile)]
                uniqueDirSet := s.uniqueDirSet.Add path }, none)

/-- Source: `addGitIgnorePatterns`. -/
def addGitIgnorePatterns (env : Env) (s : ScanState) (rootDir : String) : ScanState :=
  let gi := env.CompileIgnoreFile (filepath.Join rootDir ".gitignore")
  { s with gitIgnoreMap := fun k => if k = rootDir then gi else s.gitIgnoreMap k }

mutual

/-- Go `filepath.walkDir`: the callback on the entry, then, for a directory
that was not skipped, on every entry below it, depth first. -/
def walkDir (env : Env) (path : String) : FsNode → ScanState → ScanState × Option fs.Error
  | .file name, s => handler env s path ⟨name, false⟩ none
  | .dir name readErr children, s =>
    match handler env s path ⟨name, true⟩ none with
    | (s1, some err) => (s1, if err = fs.Error.SkipDir then none else some err)
    | (s1, none) =>
      match readErr with
      | some msg =>
        match handler env s1 path ⟨name, true⟩ (some (fs.Error.other msg)) with
        | (s2, some err) => (s2, if err = fs.Error.SkipDir then none else some err)
        | (s2, none) => walkEntries env path children s2
      | none => walkEntries env path children s1

/-- The loop of `filepath.walkDir` over the entries of the directory `path`. -/
def walkEntries (env : Env) (path : String) : List FsNode → ScanState →
    ScanState × Option fs.Error
  | [], s => (s, none)
  | d1 :: rest, s =>
    match walkDir env (filepath.Join path d1.name) d1 s with
    | (s1, some err) => (s1, if err = fs.Error.SkipDir then none else some err)
    | (s1, none) => walkEntries env path rest s1

end

/-- Go `filepath.WalkDir(root, handler)`. When `os.Lstat` fails the callback
gets a nil entry with the error; `handler` returns the error before it reads
the entry, which is given here as a non-directory. -/
def WalkDir (env : Env) (root : String) (s : ScanState) : ScanState × Option fs.Error :=
  let r :=
    match env.Lstat root with
    | .error msg => handler env s root ⟨filepath.Base root, false⟩ (some (fs.Error.other msg))
    | .ok node => walkDir env root node s
  match r with
  | (s1, some err) =>
    (s1, if err = fs.Error.SkipDir ∨ err = fs.Error.SkipAll then none else some err)
  | (s1, none) => (s1, none)

/-- Source: `Scan`. The error of the result is the one `log.Fatal` ends the
process with; the roots after it are not walked. -/
def Scan (env : Env) : List String → ScanState → ScanState × Option fs.Error
  | [], s => (s, none)
  | dir :: rest, s =>
    let s1 := { s with currentRootDir := dir }
    let s2 := addGitIgnorePatterns env s1 dir
    match WalkDir env dir s2 with
    | (s3, some err) => (s3, some err)
    | (s3, none) => Scan env rest s3

end scanner

/-! ## The output package (`internal/output/output.go`) -/

namespace output

/-- The constant `OutputFormatTable`. -/
def OutputFormatTable : String := "table"

/-- The constant `OutputFormatJSON`. -/
def OutputFormatJSON : String := "json"

/-- The two renderers of the package, `OutputCliTable` and `OutputJson`. -/
inductive Renderer where
  | OutputCliTable
  | OutputJson
  deriving DecidableEq

/-- Source: `Output`. The result lists the renderers the call invokes, in
order. -/
def Output (outputFormat : String) : List Renderer :=
  if outputFormat = OutputFormatTable then [Renderer.OutputCliTable]
  else if outputFormat = OutputFormatJSON then [Renderer.OutputJson]
  else [Renderer.OutputCliTable]

end output

/-! ## Derived notions used in the statements -/

namespace scanner

/-- The state `handler` leaves when it dispatches `path` (its last lines): the
call `language.AddLanguage(fileExt, codeFile)` is made, then the path is added
to the seen-path index. -/
def dispatch (s : ScanState) (path : String) : ScanState :=
  { s with
      AddLanguage := s.AddLanguage ++ [(filepath.Ext (filepath.Base path), ⟨path⟩)]
      uniqueDirSet := s.uniqueDirSet.Add path }

/-- The early returns of `handler` on a file entry, in the order of the source;
true when none of them is taken. -/
def passes (env : Env) (s : ScanState) (path : String) : Bool :=
  let cut := strings.TrimPrefix path s.currentRootDir
  let isMatched := s.matchRegex.any (fun re => re.MatchString cut)
  !(decide (s.matchRegex.length > 0) && !isMatched) &&
  !(!isMatched && gitIgnoreMatches s cut) &&
  !(s.ignoreRegex.any (fun re => re.MatchString cut)) &&
  env.SupportedLanguages (filepath.Ext (filepath.Base path)) &&
  !(s.uniqueDirSet.Contains path) &&
  (env.newCodeFileErr path).isNone

/-- The paths handed to `language.AddLanguage` so far, in order. -/
def ScanState.dispatched (s : ScanState) : List String :=
  s.AddLanguage.map (fun x => x.2.Path)

/-- The depth capture of `handler` on a directory entry: in directory-summary
mode a root-relative path that is one segment deep is appended to
`view_mode.SubDirs`. -/
def capture (env : Env) (s : ScanState) (path : String) : ScanState :=
  if env.ViewMode = view_mode.ViewMode.ViewModeDirs ∧
      isSpecifiedDepthDirs (strings.TrimPrefix path s.currentRootDir) 1 then
    { s with SubDirs := s.SubDirs ++ [strings.TrimPrefix path s.currentRootDir] }
  else s

/-- The invariant behind the duplicate check: no path was dispatched twice, and
every dispatched path is in the seen-path index. -/
def SeenInv (s : ScanState) : Prop :=
  s.dispatched.Nodup ∧ ∀ p ∈ s.dispatched, s.uniqueDirSet.Contains p = true

/-- The invariant of the seen-path index: it lists the dispatched paths, in
the order of their dispatch. -/
def IndexInv (s : ScanState) : Prop :=
  s.uniqueDirSet.items = s.dispatched

mutual

/-- The paths of the file entries of a tree that the walk can reach without
entering a directory whose base name is a version-control name; `path` is the
path of the node, and the paths below it are built as the walk builds them. -/
def outsideVCS (path : String) : FsNode → List String
  | .file _ => [path]
  | .dir _ _ children =>
    if isVCSDir (filepath.Base path) then [] else outsideVCSEntries path children

/-- The same for the entries of the directory `path`. -/
def outsideVCSEntries (path : String) : List FsNode → List String
  | [] => []
  | d1 :: rest => outsideVCS (filepath.Join path d1.name) d1 ++ outsideVCSEntries path rest

end

/-- Whether the path lies under a directory with a version-control name: some
element of the path before its last one is `.git`, `.svn`, `.hg`, `.bzr` or
`.cvs`. -/
def liesUnderVCSDir (path : String) : Bool :=
  ((filepath.splitSep path.data []).dropLast).any (fun elem => isVCSDir ⟨elem⟩)

/-- The source texts of a pattern list, in order. -/
def sources (list : List regexp.Regexp) : List String :=
  list.map (fun re => re.source)

/-- A pattern string whose fragments are `fragments`: non-empty pieces free of
white space, with exactly one space between two of them, and any white space
before the first and after the last. -/
def SingleSpaced (regexStr : String) (fragments : List String) : Prop :=
  (∀ f ∈ fragments, f.data ≠ [] ∧ ∀ c ∈ f.data, strings.isSpace c = false) ∧
  ∃ lead trail : List Char,
    (∀ c ∈ lead, strings.isSpace c = true) ∧ (∀ c ∈ trail, strings.isSpace c = true) ∧
    regexStr.data = lead ++ (strings.Join fragments " ").data ++ trail

/-- The segments of a path as the loop of `isSpecifiedDepthDirs` collects them:
the elements of the path between separators, last first, each with the white
space around it removed, those that are empty then left out. -/
def pathSegments (path : String) : List String :=
  ((filepath.splitSep path.data []).reverse.map
    (fun elem => strings.TrimSpace ⟨elem⟩)).filter (fun seg => seg ≠ "")

/-- The number of non-empty elements of a path between separators. -/
def nonEmptyElements (path : String) : Nat :=
  ((filepath.splitSep path.data []).filter (fun elem => elem ≠ [])).length

/-- One call of `handler` in a run of the program: the collaborators and the
configuration in force when it is made (current root, pattern lists,
ignore-file map), and the arguments the walk passes. -/
structure Call where
  env : Env
  currentRootDir : String
  matchRegex : List regexp.Regexp
  ignoreRegex : List regexp.Regexp
  gitIgnoreMap : String → Option ignore.GitIgnore
  path : String
  d : fs.DirEntry
  err : Option fs.Error

/-- The state after the call `c` made in the state `s`. -/
def Call.run (s : ScanState) (c : Call) : ScanState :=
  (handler c.env
    { s with
        currentRootDir := c.currentRootDir
        matchRegex := c.matchRegex
        ignoreRegex := c.ignoreRegex
        gitIgnoreMap := c.gitIgnoreMap }
    c.path c.d c.err).1

/-- The state after a sequence of calls of `handler`. -/
def runCalls (s : ScanState) (calls : List Call) : ScanState :=
  calls.foldl Call.run s

end scanner

/-! ## Concrete scenarios -/

namespace scenario

open scanner

/-- The matcher of the regular expression `\.go$`: the strings that end in
`.go`. -/
def goRe : regexp.Regexp := ⟨"\\.go$", fun s => strings.HasSuffix s ".go"⟩

/-- The matcher of the regular expression `_test\.go$`: the strings that end in
`_test.go`. -/
def testRe : regexp.Regexp := ⟨"_test\\.go$", fun s => strings.HasSuffix s "_test.go"⟩

/-- The matcher of the regular expression `^/?\.hidden/`: the strings that
begin with `.hidden/`, after a separator or not. -/
def hiddenRe : regexp.Regexp :=
  ⟨"^/?\\.hidden/", fun s => strings.HasPrefix s ".hidden/" || strings.HasPrefix s "/.hidden/"⟩

/-- A registry with the extensions `.go` and `.py`. -/
def goPy (ext : String) : Bool := ext = ".go" ∨ ext = ".py"

/-- An engine that compiles every text; what the expressions match plays no
part where it is used. -/
def anyEngine : regexp.Engine := ⟨fun _ => none, fun _ _ => false⟩

/-- A root `/r` holding the files `a.go`, `a.py` and `a_test.go`, without an
ignore file; every code-file handle can be made. -/
def envFiles : Env where
  SupportedLanguages := goPy
  newCodeFileErr := fun _ => none
  ViewMode := view_mode.ViewMode.ViewModeOther
  CompileIgnoreFile := fun _ => none
  Lstat := fun root =>
    if root = "/r" then
      .ok (.dir "r" none [.file "a.go", .file "a.py", .file "a_test.go"])
    else .error "lstat: no such file or directory"

/-- The state after `init` and `Config` with the match pattern `\.go$` and the
ignore pattern `_test\.go$`. -/
def goNoTests : ScanState :=
  { init with matchRegex := [goRe], ignoreRegex := [testRe] }

/-- The state `goNoTests` while the root `/r` is being walked. -/
def goNoTestsInR : ScanState :=
  { goNoTests with currentRootDir := "/r" }

/-- An ignore-file matcher for which every path is ignored. -/
def ignoreAll : ignore.GitIgnore := ⟨fun _ => true⟩

/-- The environment `envFiles` in which no file can be opened: every call of
`file.NewCodeFile` fails. -/
def envUnreadable : Env :=
  { envFiles with newCodeFileErr := fun _ => some "open: permission denied" }

/-- The root `/r` being walked with the match pattern `\.go$`, no ignore
pattern, and an ignore file that ignores everything. -/
def goIgnoredInR : ScanState :=
  { init with
      matchRegex := [goRe]
      currentRootDir := "/r"
      gitIgnoreMap := fun k => if k = "/r" then some ignoreAll else none }

/-- The state while `/r` is walked with an ignore file that ignores
everything and no pattern. -/
def allIgnoredInR : ScanState :=
  { init with
      currentRootDir := "/r"
      gitIgnoreMap := fun k => if k = "/r" then some ignoreAll else none }

/-- A root given inside a version-control directory: `/repo/.git/hooks`,
holding the file `x.go`. -/
def envHooks : Env where
  SupportedLanguages := goPy
  newCodeFileErr := fun _ => none
  ViewMode := view_mode.ViewMode.ViewModeOther
  CompileIgnoreFile := fun _ => none
  Lstat := fun root =>
    if root = "/repo/.git/hooks" then .ok (.dir "hooks" none [.file "x.go"])
    else .error "lstat: no such file or directory"

/-- A repository `/repo` with a version-control directory next to its
sources: `.git/hooks/x.go`, `.git/y.go` and `main.go`. -/
def envRepo : Env where
  SupportedLanguages := goPy
  newCodeFileErr := fun _ => none
  ViewMode := view_mode.ViewMode.ViewModeOther
  CompileIgnoreFile := fun _ => none
  Lstat := fun root =>
    if root = "/repo" then
      .ok (.dir "repo" none
        [.dir ".git" none [.dir "hooks" none [.file "x.go"], .file "y.go"], .file "main.go"])
    else .error "lstat: no such file or directory"

/-- Overlapping roots: `/r1` holds the directory `r2`, which holds `x.go`; the
same directory is also reachable as the root `/r1/r2`. -/
def envOverlap : Env where
  SupportedLanguages := goPy
  newCodeFileErr := fun _ => none
  ViewMode := view_mode.ViewMode.ViewModeOther
  CompileIgnoreFile := fun _ => none
  Lstat := fun root =>
    if root = "/r1" then .ok (.dir "r1" none [.dir "r2" none [.file "x.go"]])
    else if root = "/r1/r2" then .ok (.dir "r2" none [.file "x.go"])
    else .error "lstat: no such file or directory"

/-- Whether the text `lit` stands in a path at its beginning or right after a
`/`; `atStart` tells whether the place reached is one of these. -/
def occursAtElement (lit : List Char) : List Char → Bool → Bool
  | [], _ => false
  | c :: rest, atStart =>
    (atStart && lit.isPrefixOf (c :: rest)) || occursAtElement lit rest (c == '/')

/-- The ignore-file matcher `sabhiram/go-gitignore` compiles from the single
line `build/`: the library turns the line into the regular expression
`^(|.*/)build/(|.*)$`, so the matcher matches the paths free of line breaks in
which `build/` stands at the beginning or right after a `/`. It matches
`build/` and `/build/out.go`, and does not match `/build`. -/
def buildRule : ignore.GitIgnore :=
  ⟨fun p => !p.data.contains '\n' && occursAtElement ("build/" : String).data p.data true⟩

/-- A root `/r` with the ignore file `.gitignore` holding the rule `build/`,
the file `build/out.go` and the file `main.go`. -/
def envBuild : Env where
  SupportedLanguages := goPy
  newCodeFileErr := fun _ => none
  ViewMode := view_mode.ViewMode.ViewModeOther
  CompileIgnoreFile := fun p => if p = "/r/.gitignore" then some buildRule else none
  Lstat := fun root =>
    if root = "/r" then
      .ok (.dir "r" none
        [.file ".gitignore", .dir "build" none [.file "out.go"], .file "main.go"])
    else .error "lstat: no such file or directory"

/-- The state while `/r` is walked with the ignore file of `envBuild` loaded
and no pattern configured. -/
def buildInR : ScanState :=
  addGitIgnorePatterns envBuild { init with currentRootDir := "/r" } "/r"

/-- Directory-summary mode over the root `/r` holding `a/b/c.go`. -/
def envDepth : Env where
  SupportedLanguages := goPy
  newCodeFileErr := fun _ => none
  ViewMode := view_mode.ViewMode.ViewModeDirs
  CompileIgnoreFile := fun _ => none
  Lstat := fun root =>
    if root = "/r" then
      .ok (.dir "r" none [.dir "a" none [.dir "b" none [.file "c.go"]]])
    else .error "lstat: no such file or directory"

/-- A root `/r` holding the directory `locked`, which cannot be read, with the
file `in.go` inside, and the file `z.go`; a second root `/q` holds `q.go`. -/
def envLocked : Env where
  SupportedLanguages := goPy
  newCodeFileErr := fun _ => none
  ViewMode := view_mode.ViewMode.ViewModeOther
  CompileIgnoreFile := fun _ => none
  Lstat := fun root =>
    if root = "/r" then
      .ok (.dir "r" none
        [.dir "locked" (some "open /r/locked: permission denied") [.file "in.go"],
          .file "z.go"])
    else if root = "/q" then .ok (.dir "q" none [.file "q.go"])
    else .error "lstat: no such file or directory"

/-- Directory-summary mode over the root `.`, the current directory, holding
`.hidden/x.go`. -/
def envHidden : Env where
  SupportedLanguages := goPy
  newCodeFileErr := fun _ => none
  ViewMode := view_mode.ViewMode.ViewModeDirs
  CompileIgnoreFile := fun _ => none
  Lstat := fun root =>
    if root = "." then .ok (.dir "." none [.dir ".hidden" none [.file "x.go"]])
    else .error "lstat: no such file or directory"

end scenario

/-! ## Pattern strings -/

namespace strings

/-- Leading characters that all satisfy the test are dropped. -/
theorem dropWhile_lead (p : Char → Bool) (lead l : List Char) (h : ∀ c ∈ lead, p c = true) :
    (lead ++ l).dropWhile p = l.dropWhile p := by
  induction lead with
  | nil => rfl
  | cons c lead ih =>
    rw [List.cons_append, List.dropWhile_cons, h c (List.mem_cons_self _ _)]
    simp only [if_true]
    exact ih (fun x hx => h x (List.mem_cons_of_mem _ hx))

/-- White space around a text that neither begins nor ends with white space
is what `strings.TrimSpace` removes. -/
theorem TrimSpace_wrap (lead body trail : List Char)
    (hlead : ∀ c ∈ lead, isSpace c = true) (htrail : ∀ c ∈ trail, isSpace c = true)
    (hhead : ∀ c ∈ body.head?, isSpace c = false)
    (hlast : ∀ c ∈ body.getLast?, isSpace c = false) :
    TrimSpace ⟨lead ++ body ++ trail⟩ = ⟨body⟩ := by
  unfold TrimSpace
  congr 1
  rw [List.append_assoc, dropWhile_lead isSpace lead _ hlead]
  cases body with
  | nil =>
    rw [List.nil_append]
    have h1 : trail.dropWhile isSpace = [] := by
      have := dropWhile_lead isSpace trail [] htrail
      simpa using this
    rw [h1]
    rfl
  | cons b rest =>
    have hb : isSpace b = false := hhead b (by simp)
    rw [List.cons_append, List.dropWhile_cons, hb]
    simp only [Bool.false_eq_true, if_false]
    rw [← List.cons_append, List.reverse_append,
      dropWhile_lead isSpace trail.reverse _ (fun c hc => htrail c (List.mem_reverse.1 hc))]
    have hl : ∀ c ∈ (b :: rest).reverse.head?, isSpace c = false := by
      intro c hc
      rw [List.head?_reverse] at hc
      exact hlast c hc
    cases hr : (b :: rest).reverse with
    | nil => simp at hr
    | cons l r =>
      rw [hr] at hl
      have hlsp : isSpace l = false := hl l (by simp)
      rw [List.dropWhile_cons, hlsp]
      simp only [Bool.false_eq_true, if_false]
      rw [← hr, List.reverse_reverse]

/-- A string of white space only is trimmed to the empty string. -/
theorem TrimSpace_blank (s : String) (h : ∀ c ∈ s.data, isSpace c = true) :
    TrimSpace s = "" := by
  have := TrimSpace_wrap s.data [] [] h (by simp) (by simp) (by simp)
  simpa using this

/-- Joining an element before others. -/
theorem joinData_cons (sep elem : List Char) (rest : List (List Char)) (h : rest ≠ []) :
    joinData sep (elem :: rest) = elem ++ sep ++ joinData sep rest := by
  cases rest with
  | nil => exact absurd rfl h
  | cons r rs => rfl

/-- One step of the cut at spaces. -/
theorem splitLoop_space_cons (c : Char) (rest cur : List Char) :
    splitLoop [' '] (c :: rest) 0 cur =
      if c = ' ' then cur.reverse :: splitLoop [' '] rest 0 []
      else splitLoop [' '] rest 0 (c :: cur) := by
  by_cases h : c = ' '
  · subst h
    simp [splitLoop, List.isPrefixOf]
  · have h' : ¬(' ' = c) := fun e => h e.symm
    simp [splitLoop, List.isPrefixOf, h, h']

/-- The cut at spaces runs through a fragment without space. -/
theorem splitLoop_fragment (f rest cur : List Char) (hf : ∀ c ∈ f, isSpace c = false) :
    splitLoop [' '] (f ++ rest) 0 cur = splitLoop [' '] rest 0 (f.reverse ++ cur) := by
  induction f generalizing cur with
  | nil => rfl
  | cons c f ih =>
    have hc : c ≠ ' ' := by
      intro h
      have := hf c (List.mem_cons_self _ _)
      rw [h] at this
      exact absurd this (by decide)
    rw [List.cons_append, splitLoop_space_cons, if_neg hc,
      ih (c :: cur) (fun x hx => hf x (List.mem_cons_of_mem _ hx))]
    simp

/-- Cutting at spaces fragments joined by single spaces gives the fragments
back. -/
theorem splitLoop_joinData (fs : List (List Char)) (hne : fs ≠ [])
    (hfs : ∀ f ∈ fs, ∀ c ∈ f, isSpace c = false) :
    splitLoop [' '] (joinData [' '] fs) 0 [] = fs := by
  induction fs with
  | nil => exact absurd rfl hne
  | cons a rest ih =>
    cases rest with
    | nil =>
      have := splitLoop_fragment a [] [] (hfs a (List.mem_cons_self _ _))
      simp only [List.append_nil] at this
      simp [joinData, this, splitLoop]
    | cons b r =>
      rw [joinData_cons _ _ _ (List.cons_ne_nil _ _), List.append_assoc,
        splitLoop_fragment a _ [] (hfs a (List.mem_cons_self _ _))]
      simp only [List.singleton_append, List.append_nil]
      rw [splitLoop_space_cons, if_pos rfl, List.reverse_reverse,
        ih (List.cons_ne_nil _ _) (fun f hf => hfs f (List.mem_cons_of_mem _ hf))]

/-- The first character of joined fragments is that of the first fragment,
and the last character that of the last one: neither is white space. -/
theorem joinData_ends (fs : List (List Char))
    (hfs : ∀ f ∈ fs, f ≠ [] ∧ ∀ c ∈ f, isSpace c = false) :
    (∀ c ∈ (joinData [' '] fs).head?, isSpace c = false) ∧
      (∀ c ∈ (joinData [' '] fs).getLast?, isSpace c = false) := by
  induction fs with
  | nil => simp [joinData]
  | cons a rest ih =>
    obtain ⟨hane, ha⟩ := hfs a (List.mem_cons_self _ _)
    cases rest with
    | nil =>
      simp only [joinData]
      constructor
      · intro c hc
        exact ha c (List.mem_of_mem_head? hc)
      · intro c hc
        exact ha c (List.mem_of_mem_getLast? hc)
    | cons b r =>
      rw [joinData_cons _ _ _ (List.cons_ne_nil _ _)]
      have ih' := ih (fun f hf => hfs f (List.mem_cons_of_mem _ hf))
      have hjne : joinData [' '] (b :: r) ≠ [] := by
        obtain ⟨hbne, _⟩ := hfs b (List.mem_cons_of_mem _ (List.mem_cons_self _ _))
        cases r with
        | nil => simpa [joinData] using hbne
        | cons r1 r2 =>
          rw [joinData_cons _ _ _ (List.cons_ne_nil _ _)]
          simp [hbne]
      constructor
      · intro c hc
        cases a with
        | nil => exact absurd rfl hane
        | cons a0 a1 =>
          simp only [List.cons_append, List.head?_cons, Option.mem_def, Option.some.injEq] at hc
          rw [← hc]
          exact ha a0 (List.mem_cons_self _ _)
      · intro c hc
        rw [List.getLast?_append_of_ne_nil _ hjne] at hc
        exact ih'.2 c hc

/-- White space before the first field is passed over. -/
theorem fieldsLoop_lead (lead rest : List Char) (h : ∀ c ∈ lead, isSpace c = true) :
    fieldsLoop (lead ++ rest) [] = fieldsLoop rest [] := by
  induction lead with
  | nil => rfl
  | cons c lead ih =>
    rw [List.cons_append, fieldsLoop, h c (List.mem_cons_self _ _)]
    simp only [if_true]
    exact ih (fun x hx => h x (List.mem_cons_of_mem _ hx))

/-- The loop of `strings.Fields` runs through a fragment without white
space. -/
theorem fieldsLoop_fragment (f rest cur : List Char) (hf : ∀ c ∈ f, isSpace c = false) :
    fieldsLoop (f ++ rest) cur = fieldsLoop rest (f.reverse ++ cur) := by
  induction f generalizing cur with
  | nil => rfl
  | cons c f ih =>
    rw [List.cons_append, fieldsLoop, hf c (List.mem_cons_self _ _)]
    simp only [Bool.false_eq_true, if_false]
    rw [ih (c :: cur) (fun x hx => hf x (List.mem_cons_of_mem _ hx))]
    simp

/-- White space ends the field that is being read. -/
theorem fieldsLoop_space (c : Char) (rest cur : List Char) (hc : isSpace c = true)
    (hcur : cur ≠ []) :
    fieldsLoop (c :: rest) cur = cur.reverse :: fieldsLoop rest [] := by
  rw [fieldsLoop, hc]
  simp [hcur]

/-- The fields of fragments joined by single spaces and followed by white
space are the fragments. -/
theorem fieldsLoop_joinData (fs : List (List Char)) (trail : List Char)
    (hfs : ∀ f ∈ fs, f ≠ [] ∧ ∀ c ∈ f, isSpace c = false)
    (htrail : ∀ c ∈ trail, isSpace c = true) :
    fieldsLoop (joinData [' '] fs ++ trail) [] = fs := by
  have hblank : fieldsLoop trail [] = [] := by
    have := fieldsLoop_lead trail [] htrail
    simpa [fieldsLoop] using this
  induction fs with
  | nil => simpa [joinData] using hblank
  | cons a rest ih =>
    obtain ⟨hane, ha⟩ := hfs a (List.mem_cons_self _ _)
    have harev : a.reverse ≠ [] := by simpa using hane
    cases rest with
    | nil =>
      simp only [joinData]
      rw [fieldsLoop_fragment a trail [] ha, List.append_nil]
      cases trail with
      | nil => simp [fieldsLoop, hane]
      | cons t ts =>
        rw [fieldsLoop_space t ts _ (htrail t (List.mem_cons_self _ _)) harev,
          List.reverse_reverse]
        have : fieldsLoop ts [] = [] := by
          have := fieldsLoop_lead ts [] (fun c hc => htrail c (List.mem_cons_of_mem _ hc))
          simpa [fieldsLoop] using this
        rw [this]
    | cons b r =>
      rw [joinData_cons _ _ _ (List.cons_ne_nil _ _), List.append_assoc, List.append_assoc,
        fieldsLoop_fragment a _ [] ha, List.append_nil, List.singleton_append,
        fieldsLoop_space ' ' _ _ (by decide) harev, List.reverse_reverse,
        ih (fun f hf => hfs f (List.mem_cons_of_mem _ hf))]

end strings

namespace scanner

/-- Strings taken apart into characters and put together again. -/
theorem map_mk_data (l : List String) :
    (l.map (fun e => e.data)).map (fun piece => (⟨piece⟩ : String)) = l := by
  induction l with
  | nil => rfl
  | cons a rest ih =>
    rw [List.map_cons, List.map_cons, ih]

/-- The loop of `Config` over fragments that all compile appends one matcher
for each, in order. -/
theorem compileLoop_ok (eng : regexp.Engine) (fs : List String)
    (h : ∀ f ∈ fs, eng.compileErr f = none) :
    ∀ list : List regexp.Regexp,
      compileLoop eng fs list =
        some (list ++ fs.map (fun f => ⟨f, eng.MatchString f⟩)) := by
  induction fs with
  | nil => intro list; simp [compileLoop]
  | cons f rest ih =>
    intro list
    simp only [compileLoop, regexp.MustCompile, h f (List.mem_cons_self _ _)]
    rw [ih (fun g hg => h g (List.mem_cons_of_mem _ hg))]
    simp

/-- A block of `Config` on a blank pattern string leaves the list as it is. -/
theorem configList_blank (eng : regexp.Engine) (regexStr : String)
    (list : List regexp.Regexp) (h : ∀ c ∈ regexStr.data, strings.isSpace c = true) :
    configList eng regexStr list = some list := by
  unfold configList
  rw [strings.TrimSpace_blank regexStr h]
  rfl

/-- A block of `Config` on fragments separated by single spaces appends one
matcher for each fragment, in order, when they all compile. -/
theorem configList_single_spaced (eng : regexp.Engine) (regexStr : String)
    (fs : List String) (list : List regexp.Regexp) (h : SingleSpaced regexStr fs)
    (hc : ∀ f ∈ fs, eng.compileErr f = none) :
    configList eng regexStr list =
      some (list ++ fs.map (fun f => ⟨f, eng.MatchString f⟩)) := by
  obtain ⟨hfs, lead, trail, hlead, htrail, hstr⟩ := h
  have hfs' : ∀ f ∈ fs.map (fun e => e.data), f ≠ [] ∧ ∀ c ∈ f, strings.isSpace c = false := by
    intro f hf
    obtain ⟨e, he, rfl⟩ := List.mem_map.1 hf
    exact hfs e he
  have hends := strings.joinData_ends (fs.map (fun e => e.data)) hfs'
  have htrim : strings.TrimSpace regexStr = strings.Join fs " " := by
    have := strings.TrimSpace_wrap lead (strings.Join fs " ").data trail hlead htrail
      hends.1 hends.2
    rw [← hstr] at this
    exact this
  unfold configList
  simp only [htrim]
  cases hfsne : fs with
  | nil => simp [strings.Join, strings.joinData]
  | cons a rest =>
    rw [← hfsne]
    have hne : fs.map (fun e => e.data) ≠ [] := by simp [hfsne]
    have hsplit : strings.Split (strings.Join fs " ") " " = fs := by
      unfold strings.Split
      have hsep : (" " : String).data = [' '] := rfl
      rw [hsep]
      simp only [List.cons_ne_nil, if_false]
      unfold strings.Join
      rw [hsep, strings.splitLoop_joinData _ hne (fun f hf => (hfs' f hf).2)]
      exact map_mk_data fs
    have hlen : (strings.Join fs " ").data.length > 0 := by
      rw [hfsne]
      obtain ⟨hane, _⟩ := hfs a (by rw [hfsne]; exact List.mem_cons_self _ _)
      unfold strings.Join
      cases rest with
      | nil =>
        simp only [List.map_cons, List.map_nil, strings.joinData]
        exact List.length_pos.2 hane
      | cons b r =>
        simp only [List.map_cons]
        rw [strings.joinData_cons _ _ _ (List.cons_ne_nil _ _)]
        simp only [List.length_append]
        have := List.length_pos.2 hane
        omega
    rw [if_pos hlen, hsplit, compileLoop_ok eng fs hc]

/-- The fields of a pattern string with single spaces between its fragments
are the fragments. -/
theorem Fields_single_spaced (regexStr : String) (fs : List String)
    (h : SingleSpaced regexStr fs) : strings.Fields regexStr = fs := by
  obtain ⟨hfs, lead, trail, hlead, htrail, hstr⟩ := h
  have hfs' : ∀ f ∈ fs.map (fun e => e.data), f ≠ [] ∧ ∀ c ∈ f, strings.isSpace c = false := by
    intro f hf
    obtain ⟨e, he, rfl⟩ := List.mem_map.1 hf
    exact hfs e he
  unfold strings.Fields
  rw [hstr, List.append_assoc, strings.fieldsLoop_lead lead _ hlead]
  unfold strings.Join
  have hsep : (" " : String).data = [' '] := rfl
  rw [hsep, strings.fieldsLoop_joinData _ trail hfs' htrail]
  exact map_mk_data fs

end scanner

/-! ## Paths built by the walk -/

namespace filepath

/-- One step of the cut. -/
theorem splitSep_cons (c : Char) (rest cur : List Char) :
    splitSep (c :: rest) cur =
      if IsPathSeparator c then cur.reverse :: splitSep rest [] else splitSep rest (c :: cur) :=
  rfl

/-- Cutting a path that continues with a separator and more. -/
theorem splitSep_append (a b cur : List Char) :
    splitSep (a ++ Separator :: b) cur = splitSep a cur ++ splitSep b [] := by
  induction a generalizing cur with
  | nil => simp [splitSep, IsPathSeparator]
  | cons c a ih =>
    rw [List.cons_append, splitSep_cons, splitSep_cons]
    split
    · rw [ih]; rfl
    · rw [ih]

/-- A piece without separator is a single element. -/
theorem splitSep_name (n cur : List Char) (h : ∀ c ∈ n, IsPathSeparator c = false) :
    splitSep n cur = [cur.reverse ++ n] := by
  induction n generalizing cur with
  | nil => simp [splitSep]
  | cons c n ih =>
    have hc : IsPathSeparator c = false := h c (List.mem_cons_self _ _)
    rw [splitSep_cons]
    simp only [hc, Bool.false_eq_true, if_false]
    rw [ih (c :: cur) (fun x hx => h x (List.mem_cons_of_mem _ hx))]
    simp

/-- Putting an element before others. -/
theorem joinSep_cons (k : List Char) (rest : List (List Char)) (h : rest ≠ []) :
    joinSep (k :: rest) = k ++ Separator :: joinSep rest := by
  cases rest with
  | nil => exact absurd rfl h
  | cons r rs => rfl

/-- Putting elements together when the last one is known. -/
theorem joinSep_append_singleton (ks : List (List Char)) (n : List Char) :
    ∃ front, joinSep (ks ++ [n]) = front ++ n ∧
      (front = [] ∨ ∃ f, front = f ++ [Separator]) := by
  induction ks with
  | nil => exact ⟨[], by simp [joinSep], Or.inl rfl⟩
  | cons k ks ih =>
    obtain ⟨front, hf, hfront⟩ := ih
    refine ⟨k ++ Separator :: front, ?_, Or.inr ?_⟩
    · rw [List.cons_append, joinSep_cons k (ks ++ [n]) (by simp), hf]
      simp
    · rcases hfront with h | ⟨f, h⟩
      · exact ⟨k, by simp [h]⟩
      · exact ⟨k ++ Separator :: f, by simp [h]⟩

/-- The base of a path that ends with a name after a separator, or is the
name alone, is the name. -/
theorem Base_of_suffix (front n : List Char) (hne : n ≠ [])
    (hn : ∀ c ∈ n, IsPathSeparator c = false)
    (hf : front = [] ∨ ∃ f, front = f ++ [Separator]) :
    Base ⟨front ++ n⟩ = ⟨n⟩ := by
  have hdrop : ∀ l : List Char, (n.reverse ++ l).dropWhile IsPathSeparator = n.reverse ++ l := by
    intro l
    cases hr : n.reverse with
    | nil => exact absurd (List.reverse_eq_nil_iff.1 hr) hne
    | cons c r =>
      have hc : IsPathSeparator c = false :=
        hn c (List.mem_reverse.1 (by rw [hr]; exact List.mem_cons_self _ _))
      simp [List.dropWhile, hc]
  have htake : ∀ l : List Char, (l = [] ∨ ∃ f, l = Separator :: f) →
      (n.reverse ++ l).takeWhile (fun c => !IsPathSeparator c) = n.reverse := by
    intro l hl
    have hall : ∀ c ∈ n.reverse, (!IsPathSeparator c) = true := by
      intro c hc
      simp [hn c (List.mem_reverse.1 hc)]
    have : ∀ m : List Char, (∀ c ∈ m, (!IsPathSeparator c) = true) →
        (m ++ l).takeWhile (fun c => !IsPathSeparator c) = m := by
      intro m hm
      induction m with
      | nil =>
        rcases hl with h | ⟨f, h⟩
        · simp [h]
        · simp [h, List.takeWhile, IsPathSeparator]
      | cons c m ih =>
        rw [List.cons_append, List.takeWhile_cons, hm c (List.mem_cons_self _ _)]
        simp only [if_true]
        rw [ih (fun x hx => hm x (List.mem_cons_of_mem _ hx))]
    exact this n.reverse hall
  have hrev : (front ++ n).reverse = n.reverse ++ front.reverse := List.reverse_append _ _
  have hfr : front.reverse = [] ∨ ∃ f, front.reverse = Separator :: f := by
    rcases hf with h | ⟨f, h⟩
    · exact Or.inl (by simp [h])
    · exact Or.inr ⟨f.reverse, by simp [h]⟩
  unfold Base
  have hne2 : front ++ n ≠ [] := by simp [hne]
  simp only [hne2, if_false, hrev, hdrop, htake _ hfr, List.reverse_reverse, hne]

/-- A cleaned path whose last element is an entry name ends with that name,
alone or right after a separator. -/
theorem Clean_ends (x n : List Char) (pre : List (List Char))
    (hsplit : splitSep x [] = pre ++ [n]) (hne : n ≠ [])
    (hdot : n ≠ ['.']) (hdots : n ≠ ['.', '.']) :
    ∃ front, (Clean ⟨x⟩).data = front ++ n ∧
      (front = [] ∨ ∃ f, front = f ++ [Separator]) := by
  unfold Clean
  simp only [hsplit, List.foldl_append, List.foldl_cons, List.foldl_nil]
  have hstep : ∀ (rooted : Bool) (stack : List (List Char)),
      cleanStep rooted stack n = n :: stack := by
    intro rooted stack
    simp [cleanStep, hne, hdot, hdots]
  simp only [hstep, List.reverse_cons]
  generalize (List.foldl (cleanStep (decide (x.head? = some Separator))) [] pre).reverse = ks
  obtain ⟨front, hf, hfront⟩ := joinSep_append_singleton ks n
  rw [hf]
  by_cases hr : x.head? = some Separator
  · simp only [hr, if_true]
    refine ⟨Separator :: front, rfl, Or.inr ?_⟩
    rcases hfront with h | ⟨f, h⟩
    · exact ⟨[], by simp [h]⟩
    · exact ⟨Separator :: f, by simp [h]⟩
  · have hbody : front ++ n ≠ [] := by simp [hne]
    simp only [hr, if_false, hbody]
    exact ⟨front, rfl, hfront⟩

/-- The base name of the path the walk builds for an entry is the name of the
entry. -/
theorem Base_Join (path name : String) (h : IsEntryName name) :
    Base (Join path name) = name := by
  obtain ⟨hne, hsep, hdot, hdots⟩ := h
  have hsplit : splitSep name.data [] = [name.data] := by
    rw [splitSep_name name.data [] hsep]
    simp
  have hends : ∃ front, (Join path name).data = front ++ name.data ∧
      (front = [] ∨ ∃ f, front = f ++ [Separator]) := by
    unfold Join
    by_cases hp : path.data = []
    · simp only [hp, ne_eq, not_true_eq_false, if_false, hne, not_false_eq_true, if_true]
      exact Clean_ends name.data name.data [] (by rw [hsplit]; rfl) hne hdot hdots
    · simp only [ne_eq, hp, not_false_eq_true, if_true]
      exact Clean_ends _ name.data (splitSep path.data [])
        (by rw [splitSep_append, hsplit]) hne hdot hdots
  obtain ⟨front, hf, hfront⟩ := hends
  have hj : Join path name = ⟨front ++ name.data⟩ := by
    rw [← hf]
  rw [hj, Base_of_suffix front name.data hne hsep hfront]

/-- The directory part of `filepath.Split` is empty or ends with a separator,
and is not longer than the path. -/
theorem Split_dir (path : String) :
    ((Split path).1.data = [] ∨ ∃ f, (Split path).1.data = f ++ [Separator]) ∧
      (Split path).1.data.length ≤ path.data.length := by
  have hsplit := List.takeWhile_append_dropWhile (fun c => !IsPathSeparator c) path.data.reverse
  have hpath : path.data =
      (path.data.reverse.dropWhile (fun c => !IsPathSeparator c)).reverse ++
        (path.data.reverse.takeWhile (fun c => !IsPathSeparator c)).reverse := by
    rw [← List.reverse_append, hsplit, List.reverse_reverse]
  have hdir : (Split path).1.data =
      (path.data.reverse.dropWhile (fun c => !IsPathSeparator c)).reverse := by
    show List.take _ path.data = _
    conv_lhs => rw [hpath]
    rw [List.length_append]
    simp
  rw [hdir]
  constructor
  · cases hd : path.data.reverse.dropWhile (fun c => !IsPathSeparator c) with
    | nil => exact Or.inl rfl
    | cons c rest =>
      right
      have hc := List.head_dropWhile_not (fun c => !IsPathSeparator c) path.data.reverse
        (by rw [hd]; exact List.cons_ne_nil _ _)
      simp only [hd, List.head_cons, Bool.not_eq_true, Bool.not_eq_false'] at hc
      have hcs : c = Separator := by simpa [IsPathSeparator] using hc
      exact ⟨rest.reverse, by simp [hcs]⟩
  · rw [List.length_reverse]
    calc (path.data.reverse.dropWhile (fun c => !IsPathSeparator c)).length
        ≤ path.data.reverse.length := (List.dropWhile_sublist _).length_le
      _ = path.data.length := List.length_reverse _

/-- The two parts of `filepath.Split` make up the path, and the file part holds
no separator. -/
theorem Split_parts (path : String) :
    (Split path).1.data ++ (Split path).2.data = path.data ∧
      ∀ c ∈ (Split path).2.data, IsPathSeparator c = false := by
  constructor
  · show List.take _ path.data ++ _ = path.data
    have hlen : (path.data.reverse.takeWhile (fun c => !IsPathSeparator c)).reverse.length ≤
        path.data.length := by
      rw [List.length_reverse]
      calc (path.data.reverse.takeWhile (fun c => !IsPathSeparator c)).length
          ≤ path.data.reverse.length := (List.takeWhile_sublist _).length_le
        _ = path.data.length := List.length_reverse _
    have hsplit := List.takeWhile_append_dropWhile (fun c => !IsPathSeparator c)
      path.data.reverse
    have hpath : path.data =
        (path.data.reverse.dropWhile (fun c => !IsPathSeparator c)).reverse ++
          (path.data.reverse.takeWhile (fun c => !IsPathSeparator c)).reverse := by
      rw [← List.reverse_append, hsplit, List.reverse_reverse]
    have htake : List.take
        (path.data.length -
          (path.data.reverse.takeWhile (fun c => !IsPathSeparator c)).reverse.length)
        path.data =
        (path.data.reverse.dropWhile (fun c => !IsPathSeparator c)).reverse := by
      conv_lhs => rw [hpath]
      rw [List.length_append]
      simp
    show List.take _ path.data ++
      (path.data.reverse.takeWhile (fun c => !IsPathSeparator c)).reverse = path.data
    rw [htake]
    exact hpath.symm
  · intro c hc
    have hc' : c ∈ path.data.reverse.takeWhile (fun c => !IsPathSeparator c) :=
      List.mem_reverse.1 hc
    have := List.mem_takeWhile_imp hc'
    simpa using this

end filepath

/-! ## The depth of a path -/

namespace scanner

/-- The loop of `isSpecifiedDepthDirs` breaks within one iteration more than
the length of the path: every iteration that does not break goes on with a
strictly shorter path. -/
theorem depthLoop_isSome (fuel : Nat) :
    ∀ (path : String) (segments : List String), path.data.length < fuel →
      (depthLoop fuel path segments).isSome = true := by
  induction fuel with
  | zero => intro path segments h; exact absurd h (Nat.not_lt_zero _)
  | succ fuel ih =>
    intro path segments h
    unfold depthLoop
    simp only
    split
    · rfl
    · rename_i hbreak
      obtain ⟨hshape, hlen⟩ := filepath.Split_dir path
      have hne : (filepath.Split path).1.data ≠ [] := by
        intro h0
        apply hbreak
        right
        exact String.ext h0
      rcases hshape with h0 | ⟨f, hf⟩
      · exact absurd h0 hne
      · have hsuf : strings.HasSuffix (filepath.Split path).1 "/" = true := by
          unfold strings.HasSuffix
          rw [hf]
          simp [filepath.Separator]
        have htrim : (strings.TrimSuffix (filepath.Split path).1 "/").data = f := by
          unfold strings.TrimSuffix
          rw [hsuf]
          simp only [if_true]
          rw [hf]
          simp
        rw [hsuf]
        simp only [if_true]
        apply ih
        rw [htrim]
        have : f.length + 1 ≤ path.data.length := by
          rw [hf] at hlen
          simpa using hlen
        omega

/-- A segment is collected by the loop of `isSpecifiedDepthDirs` when it is not
empty after trimming. -/
theorem segments_append (segments : List String) (file : String) :
    (if strings.TrimSpace file ≠ "" then segments ++ [strings.TrimSpace file] else segments) =
      segments ++ [strings.TrimSpace file].filter (fun seg => seg ≠ "") := by
  by_cases h : strings.TrimSpace file = ""
  · simp [h]
  · simp [h]

/-- The loop of `isSpecifiedDepthDirs`, given enough iterations, collects the
segments of the path. -/
theorem depthLoop_eq (fuel : Nat) :
    ∀ (path : String) (segments : List String), path.data.length < fuel →
      depthLoop fuel path segments = some (segments ++ pathSegments path) := by
  induction fuel with
  | zero => intro path segments h; exact absurd h (Nat.not_lt_zero _)
  | succ fuel ih =>
    intro path segments h
    obtain ⟨hshape, hlen⟩ := filepath.Split_dir path
    obtain ⟨hparts, hfile⟩ := filepath.Split_parts path
    have hfileSplit : filepath.splitSep (filepath.Split path).2.data [] =
        [(filepath.Split path).2.data] := by
      rw [filepath.splitSep_name _ [] hfile]
      simp
    have heta : (⟨(filepath.Split path).2.data⟩ : String) = (filepath.Split path).2 := rfl
    unfold depthLoop
    simp only
    rw [segments_append]
    split
    · rename_i hbreak
      congr 1
      congr 1
      unfold pathSegments
      rcases hbreak with hb | hb
      · have hd : (filepath.Split path).1.data = [filepath.Separator] := by
          rw [hb]; rfl
        rw [← hparts, hd]
        show _ = List.filter _ (List.map _
          (filepath.splitSep ([] ++ filepath.Separator :: (filepath.Split path).2.data)
            []).reverse)
        rw [filepath.splitSep_append, hfileSplit]
        have h0 : strings.TrimSpace "" = "" := by decide
        have h1 : strings.TrimSpace ⟨[]⟩ = "" := h0
        simp only [filepath.splitSep, List.reverse_nil, List.nil_append, List.singleton_append,
          List.reverse_cons, List.reverse_nil, List.map_cons, List.map_nil, heta, h1]
        by_cases ht : strings.TrimSpace (filepath.Split path).2 = ""
        · simp [ht, List.filter]
        · simp [ht, List.filter]
      · have hd : (filepath.Split path).1.data = [] := by
          rw [hb]
        rw [← hparts, hd, List.nil_append, hfileSplit]
        simp [heta]
    · rename_i hbreak
      have hne : (filepath.Split path).1.data ≠ [] := by
        intro h0
        apply hbreak
        right
        exact String.ext h0
      rcases hshape with h0 | ⟨f, hf⟩
      · exact absurd h0 hne
      · have hsuf : strings.HasSuffix (filepath.Split path).1 "/" = true := by
          unfold strings.HasSuffix
          rw [hf]
          simp [filepath.Separator]
        have htrim : strings.TrimSuffix (filepath.Split path).1 "/" = ⟨f⟩ := by
          unfold strings.TrimSuffix
          rw [hsuf]
          simp only [if_true]
          rw [hf]
          simp
        rw [hsuf]
        simp only [if_true]
        rw [htrim]
        have hlt : f.length < fuel := by
          have : f.length + 1 ≤ path.data.length := by
            rw [hf] at hlen
            simpa using hlen
          omega
        rw [ih ⟨f⟩ _ hlt, List.append_assoc]
        congr 2
        unfold pathSegments
        have hp : path.data = f ++ filepath.Separator :: (filepath.Split path).2.data := by
          rw [← hparts, hf]
          simp
        rw [hp, filepath.splitSep_append, hfileSplit, List.reverse_append, List.map_append,
          List.filter_append, List.map_reverse, List.filter_reverse]
        simp [heta]

/-- What `isSpecifiedDepthDirs` computes: whether the path has `depth`
segments. -/
theorem isSpecifiedDepthDirs_iff (path : String) (depth : Int) :
    isSpecifiedDepthDirs path depth = true ↔ ((pathSegments path).length : Int) = depth := by
  unfold isSpecifiedDepthDirs
  rw [depthLoop_eq (path.data.length + 1) path [] (Nat.lt_succ_self _)]
  simp

/-- The path the loop of `isSpecifiedDepthDirs` goes on with, when it does not
break, is strictly shorter than the path it had. -/
theorem depthLoop_shorter (path : String)
    (hbreak : ¬((filepath.Split path).1 = "/" ∨ (filepath.Split path).1 = "")) :
    (if strings.HasSuffix (filepath.Split path).1 "/" then
        strings.TrimSuffix (filepath.Split path).1 "/"
      else (filepath.Split path).1).data.length < path.data.length := by
  obtain ⟨hshape, hlen⟩ := filepath.Split_dir path
  have hne : (filepath.Split path).1.data ≠ [] := by
    intro h0
    apply hbreak
    right
    exact String.ext h0
  rcases hshape with h0 | ⟨f, hf⟩
  · exact absurd h0 hne
  · have hsuf : strings.HasSuffix (filepath.Split path).1 "/" = true := by
      unfold strings.HasSuffix
      rw [hf]
      simp [filepath.Separator]
    have htrim : (strings.TrimSuffix (filepath.Split path).1 "/").data = f := by
      unfold strings.TrimSuffix
      rw [hsuf]
      simp only [if_true]
      rw [hf]
      simp
    rw [hsuf]
    simp only [if_true]
    rw [htrim]
    have : f.length + 1 ≤ path.data.length := by
      rw [hf] at hlen
      simpa using hlen
    omega

/-- Without an element made of white space only, the segments of a path are as
many as its non-empty elements. -/
theorem pathSegments_length (path : String)
    (h : ∀ elem ∈ filepath.splitSep path.data [], elem ≠ [] →
      strings.TrimSpace ⟨elem⟩ ≠ "") :
    (pathSegments path).length = nonEmptyElements path := by
  unfold pathSegments nonEmptyElements
  rw [List.map_reverse, List.filter_reverse, List.length_reverse, List.filter_map,
    List.length_map]
  congr 1
  apply List.filter_congr
  intro elem helem
  by_cases he : elem = []
  · subst he
    have h0 : strings.TrimSpace ⟨[]⟩ = "" := by decide
    simp [h0]
  · simp [he, h elem helem he]

end scanner

/-! ## The decision of `handler` on one entry -/

namespace scanner

/-- On a file entry `handler` either dispatches or leaves the state as it is,
according to `passes`. -/
theorem handler_file (env : Env) (s : ScanState) (path : String) (d : fs.DirEntry)
    (hd : d.IsDir = false) :
    handler env s path d none =
      if passes env s path then (dispatch s path, none) else (s, none) := by
  unfold handler passes dispatch file.NewCodeFile
  simp only [hd, Bool.false_eq_true, if_false]
  by_cases h0 : s.matchRegex.length > 0 <;>
  by_cases h1 : s.matchRegex.any
      (fun re => re.MatchString (strings.TrimPrefix path s.currentRootDir)) = true <;>
  by_cases h2 : gitIgnoreMatches s (strings.TrimPrefix path s.currentRootDir) = true <;>
  by_cases h3 : s.ignoreRegex.any
      (fun re => re.MatchString (strings.TrimPrefix path s.currentRootDir)) = true <;>
  by_cases h4 : env.SupportedLanguages (filepath.Ext (filepath.Base path)) = true <;>
  by_cases h5 : s.uniqueDirSet.Contains path = true <;>
  cases h6 : env.newCodeFileErr path <;>
  simp [h0, h1, h2, h3, h4, h5]

/-- A dispatch changes the state: one more call of `language.AddLanguage`. -/
theorem dispatch_ne (s : ScanState) (path : String) : dispatch s path ≠ s := by
  intro h
  have := congrArg (fun t => t.AddLanguage.length) h
  simp [dispatch] at this

/-- The filters of `handler` on a file entry, spelled out. -/
theorem passes_iff (env : Env) (s : ScanState) (path : String) :
    passes env s path = true ↔
      (s.matchRegex = [] ∨
        ∃ re ∈ s.matchRegex,
          re.MatchString (strings.TrimPrefix path s.currentRootDir) = true) ∧
      ((∃ re ∈ s.matchRegex,
          re.MatchString (strings.TrimPrefix path s.currentRootDir) = true) ∨
        s.gitIgnoreMap s.currentRootDir = none ∨
        ∃ gi, s.gitIgnoreMap s.currentRootDir = some gi ∧
          gi.MatchesPath (strings.TrimPrefix path s.currentRootDir) = false) ∧
      (∀ re ∈ s.ignoreRegex,
        re.MatchString (strings.TrimPrefix path s.currentRootDir) = false) ∧
      env.SupportedLanguages (filepath.Ext (filepath.Base path)) = true ∧
      s.uniqueDirSet.Contains path = false ∧
      env.newCodeFileErr path = none := by
  have hM : (∃ re ∈ s.matchRegex,
        re.MatchString (strings.TrimPrefix path s.currentRootDir) = true) ↔
      s.matchRegex.any
        (fun re => re.MatchString (strings.TrimPrefix path s.currentRootDir)) = true := by
    simp
  have hG : (s.gitIgnoreMap s.currentRootDir = none ∨
        ∃ gi, s.gitIgnoreMap s.currentRootDir = some gi ∧
          gi.MatchesPath (strings.TrimPrefix path s.currentRootDir) = false) ↔
      gitIgnoreMatches s (strings.TrimPrefix path s.currentRootDir) = false := by
    unfold gitIgnoreMatches
    cases s.gitIgnoreMap s.currentRootDir <;> simp
  have hI : (∀ re ∈ s.ignoreRegex,
        re.MatchString (strings.TrimPrefix path s.currentRootDir) = false) ↔
      s.ignoreRegex.any
        (fun re => re.MatchString (strings.TrimPrefix path s.currentRootDir)) = false := by
    simp
  have hE : s.matchRegex = [] ↔ decide (s.matchRegex.length > 0) = false := by
    cases s.matchRegex <;> simp
  rw [hM, hG, hI, hE]
  dsimp only [passes]
  generalize decide (s.matchRegex.length > 0) = e
  generalize s.matchRegex.any
    (fun re => re.MatchString (strings.TrimPrefix path s.currentRootDir)) = m
  generalize gitIgnoreMatches s (strings.TrimPrefix path s.currentRootDir) = g
  generalize s.ignoreRegex.any
    (fun re => re.MatchString (strings.TrimPrefix path s.currentRootDir)) = i
  generalize env.SupportedLanguages (filepath.Ext (filepath.Base path)) = x
  generalize s.uniqueDirSet.Contains path = u
  cases env.newCodeFileErr path <;>
  cases e <;> cases m <;> cases g <;> cases i <;> cases x <;> cases u <;> simp

/-- A file entry that matches an ignore pattern is left out. -/
theorem handler_file_ignored (env : Env) (s : ScanState) (path : String) (d : fs.DirEntry)
    (hd : d.IsDir = false)
    (hi : ∃ re ∈ s.ignoreRegex,
      re.MatchString (strings.TrimPrefix path s.currentRootDir) = true) :
    handler env s path d none = (s, none) := by
  rw [handler_file env s path d hd]
  have hp : passes env s path = false := by
    cases h : passes env s path with
    | false => rfl
    | true =>
      obtain ⟨re, hre, hm⟩ := hi
      have := ((passes_iff env s path).1 h).2.2.1 re hre
      rw [hm] at this
      exact absurd this (by decide)
  simp [hp]

/-- On a directory entry, and on an entry reported with an error, `handler`
dispatches nothing and leaves the seen-path index as it is. -/
theorem handler_dir_keeps (env : Env) (s : ScanState) (path : String) (d : fs.DirEntry)
    (err : Option fs.Error) (h : d.IsDir = true ∨ err ≠ none) :
    (handler env s path d err).1.AddLanguage = s.AddLanguage ∧
      (handler env s path d err).1.uniqueDirSet = s.uniqueDirSet := by
  cases err with
  | some e => simp [handler]
  | none =>
    have hd : d.IsDir = true := by
      rcases h with h | h
      · exact h
      · exact absurd rfl h
    unfold handler
    simp only [hd, if_true]
    split
    · exact ⟨rfl, rfl⟩
    · split <;> split <;> exact ⟨rfl, rfl⟩

/-- When a match pattern matches, `passes` does not read the ignore-file map. -/
theorem passes_gitIgnoreMap (env : Env) (s : ScanState) (path : String)
    (g : String → Option ignore.GitIgnore)
    (hm : ∃ re ∈ s.matchRegex,
      re.MatchString (strings.TrimPrefix path s.currentRootDir) = true) :
    passes env { s with gitIgnoreMap := g } path = passes env s path := by
  have hany : s.matchRegex.any
      (fun re => re.MatchString (strings.TrimPrefix path s.currentRootDir)) = true := by
    simpa using hm
  simp [passes, hany]

/-- The decision `passes` reads the two pattern lists only through whether
some pattern of the list matches, so it is the same for permuted lists. -/
theorem passes_perm (env : Env) (s : ScanState) (path : String)
    (ms is : List regexp.Regexp) (hms : ms.Perm s.matchRegex) (his : is.Perm s.ignoreRegex) :
    passes env { s with matchRegex := ms, ignoreRegex := is } path = passes env s path := by
  have h1 : ∀ f : regexp.Regexp → Bool, ms.any f = s.matchRegex.any f := by
    intro f
    rw [Bool.eq_iff_iff]
    simp only [List.any_eq_true]
    exact ⟨fun ⟨x, hx, hf⟩ => ⟨x, hms.mem_iff.1 hx, hf⟩,
      fun ⟨x, hx, hf⟩ => ⟨x, hms.mem_iff.2 hx, hf⟩⟩
  have h2 : ∀ f : regexp.Regexp → Bool, is.any f = s.ignoreRegex.any f := by
    intro f
    rw [Bool.eq_iff_iff]
    simp only [List.any_eq_true]
    exact ⟨fun ⟨x, hx, hf⟩ => ⟨x, his.mem_iff.1 hx, hf⟩,
      fun ⟨x, hx, hf⟩ => ⟨x, his.mem_iff.2 hx, hf⟩⟩
  simp only [passes, h1, h2, hms.length_eq, gitIgnoreMatches]

/-- The depth capture changes `view_mode.SubDirs` only. -/
theorem capture_fields (env : Env) (s : ScanState) (path : String) :
    (capture env s path).uniqueDirSet = s.uniqueDirSet ∧
    (capture env s path).matchRegex = s.matchRegex ∧
    (capture env s path).ignoreRegex = s.ignoreRegex ∧
    (capture env s path).currentRootDir = s.currentRootDir ∧
    (capture env s path).gitIgnoreMap = s.gitIgnoreMap ∧
    (capture env s path).AddLanguage = s.AddLanguage := by
  unfold capture
  split <;> exact ⟨rfl, rfl, rfl, rfl, rfl, rfl⟩

/-- On a directory entry `handler` prunes a version-control directory, and
otherwise captures the directory if asked to and prunes it when the ignore
file of the root matches it. -/
theorem handler_dir (env : Env) (s : ScanState) (path : String) (d : fs.DirEntry)
    (hd : d.IsDir = true) :
    handler env s path d none =
      if isVCSDir (filepath.Base path) then (s, some fs.Error.SkipDir)
      else (capture env s path,
        if gitIgnoreMatches s (strings.TrimPrefix path s.currentRootDir) then
          some fs.Error.SkipDir
        else none) := by
  have hg : gitIgnoreMatches (capture env s path)
      (strings.TrimPrefix path s.currentRootDir) =
      gitIgnoreMatches s (strings.TrimPrefix path s.currentRootDir) := by
    unfold gitIgnoreMatches
    rw [(capture_fields env s path).2.2.2.1, (capture_fields env s path).2.2.2.2.1]
  unfold handler
  simp only [hd, if_true]
  split
  · rfl
  · change (if gitIgnoreMatches (capture env s path)
        (strings.TrimPrefix path s.currentRootDir) = true then
        (capture env s path, some fs.Error.SkipDir) else (capture env s path, none)) = _
    rw [hg]
    split <;> rfl

/-- An error reported by the walk is handed back at once. -/
theorem handler_err (env : Env) (s : ScanState) (path : String) (d : fs.DirEntry)
    (e : fs.Error) : handler env s path d (some e) = (s, some e) := rfl

/-- Every call of `handler` either dispatches its path, which was not in the
seen-path index, or leaves the dispatch record and the index as they were. -/
theorem handler_cases (env : Env) (s : ScanState) (path : String) (d : fs.DirEntry)
    (err : Option fs.Error) :
    (d.IsDir = false ∧ err = none ∧ s.uniqueDirSet.Contains path = false ∧
      handler env s path d err = (dispatch s path, none)) ∨
    ((handler env s path d err).1.AddLanguage = s.AddLanguage ∧
      (handler env s path d err).1.uniqueDirSet = s.uniqueDirSet) := by
  by_cases h : d.IsDir = true ∨ err ≠ none
  · exact Or.inr (handler_dir_keeps env s path d err h)
  · have hd : d.IsDir = false := by
      cases hb : d.IsDir with
      | false => rfl
      | true => exact absurd (Or.inl hb) h
    have he : err = none := by
      cases err with
      | none => rfl
      | some e => exact absurd (Or.inr (by simp)) h
    subst he
    rw [handler_file env s path d hd]
    cases hp : passes env s path with
    | false => right; simp
    | true =>
      left
      exact ⟨hd, rfl, ((passes_iff env s path).1 hp).2.2.2.2.1, by simp⟩

/-- Membership in a set after an insertion. -/
theorem Contains_Add (t : utils.Set) (x y : String) :
    (t.Add x).Contains y = true ↔ y = x ∨ t.Contains y = true := by
  unfold utils.Set.Add
  by_cases h : t.Contains x = true
  · simp only [h, if_true]
    constructor
    · exact Or.inr
    · rintro (rfl | h')
      · exact h
      · exact h'
  · simp only [h, if_false]
    simp [utils.Set.Contains, or_comm]

/-- Membership in a set is membership in the list of its items. -/
theorem Contains_iff (t : utils.Set) (p : String) : t.Contains p = true ↔ p ∈ t.items := by
  simp [utils.Set.Contains]

/-- The dispatch record after a dispatch. -/
theorem dispatched_dispatch (s : ScanState) (path : String) :
    (dispatch s path).dispatched = s.dispatched ++ [path] := by
  simp [dispatch, ScanState.dispatched]

/-- The depth capture leaves the dispatch record alone. -/
theorem dispatched_capture (env : Env) (s : ScanState) (path : String) :
    (capture env s path).dispatched = s.dispatched := by
  unfold ScanState.dispatched
  rw [(capture_fields env s path).2.2.2.2.2]

/-- `handler` keeps the invariant of the duplicate check. -/
theorem handler_SeenInv (env : Env) (s : ScanState) (path : String) (d : fs.DirEntry)
    (err : Option fs.Error) (h : SeenInv s) : SeenInv (handler env s path d err).1 := by
  rcases handler_cases env s path d err with ⟨_, _, hu, hh⟩ | ⟨ha, hu⟩
  · rw [hh]
    have hnot : path ∉ s.dispatched := by
      intro hmem
      rw [h.2 path hmem] at hu
      exact absurd hu (by decide)
    constructor
    · rw [dispatched_dispatch]
      exact List.Nodup.append h.1 (List.nodup_singleton _) (by simpa using hnot)
    · intro p hp
      rw [dispatched_dispatch] at hp
      show (s.uniqueDirSet.Add path).Contains p = true
      rw [Contains_Add]
      rcases List.mem_append.1 hp with hp | hp
      · exact Or.inr (h.2 p hp)
      · exact Or.inl (by simpa using hp)
  · unfold SeenInv ScanState.dispatched
    rw [ha, hu]
    exact h

/-- `handler` keeps the seen-path index equal to the dispatch record. -/
theorem handler_IndexInv (env : Env) (s : ScanState) (path : String) (d : fs.DirEntry)
    (err : Option fs.Error) (h : IndexInv s) : IndexInv (handler env s path d err).1 := by
  rcases handler_cases env s path d err with ⟨_, _, hu, hh⟩ | ⟨ha, hu⟩
  · rw [hh]
    unfold IndexInv
    rw [dispatched_dispatch, ← h]
    show (s.uniqueDirSet.Add path).items = _
    unfold utils.Set.Add
    rw [hu]
    simp
  · unfold IndexInv ScanState.dispatched
    rw [ha, hu]
    exact h

end scanner

/-! ## The walk and sequences of calls -/

namespace scanner

mutual

/-- What every call of `handler` keeps, the walk of a tree keeps. -/
theorem walkDir_keeps (env : Env) (P : ScanState → Prop)
    (hP : ∀ s path d err, P s → P (handler env s path d err).1) :
    ∀ (node : FsNode) (path : String) (s : ScanState),
      P s → P (walkDir env path node s).1
  | .file name, path, s, h => by
    simp only [walkDir]
    exact hP _ _ _ _ h
  | .dir name readErr children, path, s, h => by
    simp only [walkDir]
    have h1 := hP s path ⟨name, true⟩ none h
    rcases hh : handler env s path ⟨name, true⟩ none with ⟨s1, _ | e⟩
    · rw [hh] at h1
      cases readErr with
      | none => exact walkEntries_keeps env P hP children path s1 h1
      | some msg =>
        simp only [handler_err]
        exact h1
    · rw [hh] at h1
      exact h1

/-- The same for the entries of a directory. -/
theorem walkEntries_keeps (env : Env) (P : ScanState → Prop)
    (hP : ∀ s path d err, P s → P (handler env s path d err).1) :
    ∀ (nodes : List FsNode) (path : String) (s : ScanState),
      P s → P (walkEntries env path nodes s).1
  | [], path, s, h => by simpa only [walkEntries] using h
  | d1 :: rest, path, s, h => by
    simp only [walkEntries]
    have h1 := walkDir_keeps env P hP d1 (filepath.Join path d1.name) s h
    rcases hh : walkDir env (filepath.Join path d1.name) d1 s with ⟨s1, _ | e⟩
    · rw [hh] at h1
      exact walkEntries_keeps env P hP rest path s1 h1
    · rw [hh] at h1
      exact h1

end

/-- What every call of `handler` keeps, `filepath.WalkDir` keeps. -/
theorem WalkDir_keeps (env : Env) (P : ScanState → Prop)
    (hP : ∀ s path d err, P s → P (handler env s path d err).1)
    (root : String) (s : ScanState) (h : P s) : P (WalkDir env root s).1 := by
  unfold WalkDir
  cases hl : env.Lstat root with
  | error msg =>
    simp only [handler_err]
    exact h
  | ok node =>
    have h1 := walkDir_keeps env P hP node root s h
    simp only
    rcases hh : walkDir env root node s with ⟨s1, _ | e⟩
    · rw [hh] at h1
      exact h1
    · rw [hh] at h1
      exact h1

/-- What every call of `handler` keeps and the choice of the current root and
of its ignore file does not touch, `Scan` keeps. -/
theorem Scan_keeps (env : Env) (P : ScanState → Prop)
    (hP : ∀ s path d err, P s → P (handler env s path d err).1)
    (hR : ∀ s root g, P s → P { s with currentRootDir := root, gitIgnoreMap := g }) :
    ∀ (roots : List String) (s : ScanState), P s → P (Scan env roots s).1
  | [], s, h => by simpa only [Scan] using h
  | dir :: rest, s, h => by
    simp only [Scan]
    have h0 : P (addGitIgnorePatterns env { s with currentRootDir := dir } dir) :=
      hR s dir _ h
    have h1 := WalkDir_keeps env P hP dir _ h0
    rcases hh : WalkDir env dir
        (addGitIgnorePatterns env { s with currentRootDir := dir } dir) with ⟨s3, _ | e⟩
    · rw [hh] at h1
      exact Scan_keeps env P hP hR rest s3 h1
    · rw [hh] at h1
      exact h1

mutual

/-- The walk of a tree dispatches only file entries that it reaches without
entering a directory whose base name is a version-control name. -/
theorem walkDir_outsideVCS (env : Env) :
    ∀ (node : FsNode) (path : String) (s : ScanState),
      ∀ p ∈ (walkDir env path node s).1.dispatched,
        p ∈ s.dispatched ∨ p ∈ outsideVCS path node
  | .file name, path, s, p, hp => by
    simp only [walkDir] at hp
    rw [handler_file env s path ⟨name, false⟩ rfl] at hp
    cases hpass : passes env s path with
    | false =>
      rw [hpass] at hp
      exact Or.inl hp
    | true =>
      rw [hpass] at hp
      simp only [if_true, dispatched_dispatch, List.mem_append, List.mem_singleton] at hp
      rcases hp with hp | hp
      · exact Or.inl hp
      · right
        simp [outsideVCS, hp]
  | .dir name readErr children, path, s, p, hp => by
    simp only [walkDir] at hp
    rw [handler_dir env s path ⟨name, true⟩ rfl] at hp
    cases hv : isVCSDir (filepath.Base path) with
    | true =>
      rw [hv] at hp
      exact Or.inl hp
    | false =>
      rw [hv] at hp
      simp only [Bool.false_eq_true, if_false] at hp
      cases hg : gitIgnoreMatches s (strings.TrimPrefix path s.currentRootDir) with
      | true =>
        rw [hg] at hp
        simp only [if_true] at hp
        rw [dispatched_capture] at hp
        exact Or.inl hp
      | false =>
        rw [hg] at hp
        simp only [Bool.false_eq_true, if_false] at hp
        cases readErr with
        | some msg =>
          simp only [handler_err] at hp
          rw [dispatched_capture] at hp
          exact Or.inl hp
        | none =>
          rcases walkEntries_outsideVCS env children path (capture env s path) p hp with h | h
          · rw [dispatched_capture] at h
            exact Or.inl h
          · right
            simp only [outsideVCS, hv, Bool.false_eq_true, if_false]
            exact h

/-- The same for the entries of a directory. -/
theorem walkEntries_outsideVCS (env : Env) :
    ∀ (nodes : List FsNode) (path : String) (s : ScanState),
      ∀ p ∈ (walkEntries env path nodes s).1.dispatched,
        p ∈ s.dispatched ∨ p ∈ outsideVCSEntries path nodes
  | [], path, s, p, hp => by
    simp only [walkEntries] at hp
    exact Or.inl hp
  | d1 :: rest, path, s, p, hp => by
    simp only [walkEntries] at hp
    have h1 := walkDir_outsideVCS env d1 (filepath.Join path d1.name) s
    rcases hh : walkDir env (filepath.Join path d1.name) d1 s with ⟨s1, _ | e⟩
    · rw [hh] at hp h1
      rcases walkEntries_outsideVCS env rest path s1 p hp with h2 | h2
      · rcases h1 p h2 with h3 | h3
        · exact Or.inl h3
        · right
          simp [outsideVCSEntries, h3]
      · right
        simp [outsideVCSEntries, h2]
    · rw [hh] at hp h1
      rcases h1 p hp with h3 | h3
      · exact Or.inl h3
      · right
        simp [outsideVCSEntries, h3]

end

/-- `filepath.WalkDir` on a root dispatches only file entries that it reaches
without entering a directory whose base name is a version-control name. -/
theorem WalkDir_outsideVCS (env : Env) (root : String) (s : ScanState) :
    ∀ p ∈ (WalkDir env root s).1.dispatched,
      p ∈ s.dispatched ∨ ∃ node, env.Lstat root = .ok node ∧ p ∈ outsideVCS root node := by
  intro p hp
  unfold WalkDir at hp
  cases hl : env.Lstat root with
  | error msg =>
    rw [hl] at hp
    simp only [handler_err] at hp
    exact Or.inl hp
  | ok node =>
    rw [hl] at hp
    simp only at hp
    have h1 := walkDir_outsideVCS env node root s p
    rcases hh : walkDir env root node s with ⟨s1, _ | e⟩
    · rw [hh] at hp h1
      rcases h1 hp with h | h
      · exact Or.inl h
      · exact Or.inr ⟨node, rfl, h⟩
    · rw [hh] at hp h1
      rcases h1 hp with h | h
      · exact Or.inl h
      · exact Or.inr ⟨node, rfl, h⟩

/-- `Scan` dispatches only file entries that the walk of one of the roots
reaches without entering a directory whose base name is a version-control
name. -/
theorem Scan_outsideVCS (env : Env) :
    ∀ (roots : List String) (s : ScanState),
      ∀ p ∈ (Scan env roots s).1.dispatched,
        p ∈ s.dispatched ∨
          ∃ root ∈ roots, ∃ node, env.Lstat root = .ok node ∧ p ∈ outsideVCS root node
  | [], s, p, hp => by
    simp only [Scan] at hp
    exact Or.inl hp
  | dir :: rest, s, p, hp => by
    simp only [Scan] at hp
    have h1 := WalkDir_outsideVCS env dir
      (addGitIgnorePatterns env { s with currentRootDir := dir } dir) p
    have h0 : (addGitIgnorePatterns env { s with currentRootDir := dir } dir).dispatched =
        s.dispatched := rfl
    rw [h0] at h1
    rcases hh : WalkDir env dir
        (addGitIgnorePatterns env { s with currentRootDir := dir } dir) with ⟨s3, _ | e⟩
    · rw [hh] at hp h1
      rcases Scan_outsideVCS env rest s3 p hp with h | ⟨root, hroot, node, hn, hpn⟩
      · rcases h1 h with h | ⟨node, hn, hpn⟩
        · exact Or.inl h
        · exact Or.inr ⟨dir, List.mem_cons_self _ _, node, hn, hpn⟩
      · exact Or.inr ⟨root, List.mem_cons_of_mem _ hroot, node, hn, hpn⟩
    · rw [hh] at hp h1
      rcases h1 hp with h | ⟨node, hn, hpn⟩
      · exact Or.inl h
      · exact Or.inr ⟨dir, List.mem_cons_self _ _, node, hn, hpn⟩

/-- A call of `handler` under any configuration keeps the seen-path index
equal to the dispatch record. -/
theorem Call_run_IndexInv (s : ScanState) (c : Call) (h : IndexInv s) :
    IndexInv (c.run s) :=
  handler_IndexInv c.env _ c.path c.d c.err h

/-- A sequence of calls of `handler` keeps the seen-path index equal to the
dispatch record. -/
theorem runCalls_IndexInv (calls : List Call) :
    ∀ s : ScanState, IndexInv s → IndexInv (runCalls s calls) := by
  induction calls with
  | nil => intro s h; exact h
  | cons c rest ih =>
    intro s h
    exact ih (c.run s) (Call_run_IndexInv s c h)

/-- The state after a sequence of calls followed by one more. -/
theorem runCalls_append (s : ScanState) (calls : List Call) (c : Call) :
    runCalls s (calls ++ [c]) = c.run (runCalls s calls) := by
  simp [runCalls, List.foldl_append]

/-- Every call either dispatches its own path, that of a non-directory entry
reported without error, or leaves dispatch record and index as they were. -/
theorem Call_run_cases (s : ScanState) (c : Call) :
    (c.d.IsDir = false ∧ c.err = none ∧ (c.run s).dispatched = s.dispatched ++ [c.path] ∧
      (c.run s).uniqueDirSet = s.uniqueDirSet.Add c.path) ∨
    ((c.run s).dispatched = s.dispatched ∧ (c.run s).uniqueDirSet = s.uniqueDirSet) := by
  rcases handler_cases c.env
      { s with
          currentRootDir := c.currentRootDir
          matchRegex := c.matchRegex
          ignoreRegex := c.ignoreRegex
          gitIgnoreMap := c.gitIgnoreMap }
      c.path c.d c.err with ⟨hd, he, _, hh⟩ | ⟨ha, hu⟩
  · left
    refine ⟨hd, he, ?_, ?_⟩
    · unfold Call.run
      rw [hh, dispatched_dispatch]
      rfl
    · unfold Call.run
      rw [hh]
      rfl
  · right
    constructor
    · unfold Call.run ScanState.dispatched
      rw [ha]
    · unfold Call.run
      rw [hu]

/-- Every dispatched path is the path of a call on a non-directory entry
reported without error. -/
theorem runCalls_dispatched_from (calls : List Call) (p : String) :
    p ∈ (runCalls init calls).dispatched →
      ∃ c ∈ calls, c.path = p ∧ c.d.IsDir = false ∧ c.err = none := by
  induction calls using List.reverseRecOn with
  | nil =>
    intro h
    simp [runCalls, ScanState.dispatched, init] at h
  | append_singleton calls c ih =>
    intro h
    rw [runCalls_append] at h
    rcases Call_run_cases (runCalls init calls) c with ⟨hd, he, hdis, _⟩ | ⟨hdis, _⟩
    · rw [hdis] at h
      rcases List.mem_append.1 h with h | h
      · obtain ⟨c', hc', hp⟩ := ih h
        exact ⟨c', List.mem_append_left _ hc', hp⟩
      · exact ⟨c, by simp, (List.mem_singleton.1 h).symm, hd, he⟩
    · rw [hdis] at h
      obtain ⟨c', hc', hp⟩ := ih h
      exact ⟨c', List.mem_append_left _ hc', hp⟩

end scanner

/-! ## The claims -/

namespace scanner

/-- C1: on a non-directory entry without walk error, `handler` dispatches the
file (the call of `language.AddLanguage`, then the insertion into the seen-path
index) if and only if (1) the match list is empty or a match pattern matches
the root-relative path, (2) a match pattern matched or the root has no
ignore-file matcher or the matcher does not match, (3) no ignore pattern
matches, (4) the extension of the base name is supported, (5) the path is not
in the seen-path index, (6) the code-file handle is made. Otherwise the state
is unchanged, and `handler` returns nil in every case. -/
theorem handler_file_dispatch_iff (env : Env) (s : ScanState) (path : String)
    (d : fs.DirEntry) (hd : d.IsDir = false) :
    (handler env s path d none = (dispatch s path, none) ↔
      (s.matchRegex = [] ∨
        ∃ re ∈ s.matchRegex,
          re.MatchString (strings.TrimPrefix path s.currentRootDir) = true) ∧
      ((∃ re ∈ s.matchRegex,
          re.MatchString (strings.TrimPrefix path s.currentRootDir) = true) ∨
        s.gitIgnoreMap s.currentRootDir = none ∨
        ∃ gi, s.gitIgnoreMap s.currentRootDir = some gi ∧
          gi.MatchesPath (strings.TrimPrefix path s.currentRootDir) = false) ∧
      (∀ re ∈ s.ignoreRegex,
        re.MatchString (strings.TrimPrefix path s.currentRootDir) = false) ∧
      env.SupportedLanguages (filepath.Ext (filepath.Base path)) = true ∧
      s.uniqueDirSet.Contains path = false ∧
      (∃ codeFile, file.NewCodeFile env path = .ok codeFile)) ∧
    (handler env s path d none ≠ (dispatch s path, none) →
      handler env s path d none = (s, none)) ∧
    (handler env s path d none).2 = none := by
  have hnew : (∃ codeFile, file.NewCodeFile env path = .ok codeFile) ↔
      env.newCodeFileErr path = none := by
    unfold file.NewCodeFile
    cases env.newCodeFileErr path <;> simp
  rw [hnew, ← passes_iff, handler_file env s path d hd]
  cases hp : passes env s path with
  | true => simp
  | false =>
    have := (dispatch_ne s path).symm
    simp [Prod.ext_iff, this]

/-- C1, at an input: `/r/a.go` under the root `/r`, with the match pattern
`\.go$` and the ignore pattern `_test\.go$`, passes the six conditions and is
dispatched. -/
theorem handler_file_dispatch_iff_witness :
    (⟨"a.go", false⟩ : fs.DirEntry).IsDir = false ∧
    handler scenario.envFiles scenario.goNoTestsInR "/r/a.go" ⟨"a.go", false⟩ none =
      (dispatch scenario.goNoTestsInR "/r/a.go", none) ∧
    (handler scenario.envFiles scenario.goNoTestsInR "/r/a.go" ⟨"a.go", false⟩ none).2 =
      none :=
  ⟨rfl,
   (handler_file_dispatch_iff scenario.envFiles scenario.goNoTestsInR "/r/a.go"
      ⟨"a.go", false⟩ rfl).1.2
     ⟨Or.inr (by decide), Or.inl (by decide), by decide, by decide, by decide,
      ⟨⟨"/r/a.go"⟩, rfl⟩⟩,
   (handler_file_dispatch_iff scenario.envFiles scenario.goNoTestsInR "/r/a.go"
      ⟨"a.go", false⟩ rfl).2.2⟩

/-- C2, refuted as stated: with the root `/repo/.git/hooks`, which lies inside
a directory named `.git`, `Scan` dispatches `/repo/.git/hooks/x.go`, a path
under a directory named `.git`. -/
theorem root_inside_vcs_dispatched :
    "/repo/.git/hooks/x.go" ∈
      (Scan scenario.envHooks ["/repo/.git/hooks"] init).1.dispatched ∧
    liesUnderVCSDir "/repo/.git/hooks/x.go" = true := by
  decide

/-- C2, amended: for every list of roots, every tree and every configuration
of match patterns, ignore patterns and ignore files, every path that `Scan`
dispatches is a file entry that the walk of one of the roots reaches without
entering a directory (the root itself included) whose base name is `.git`,
`.svn`, `.hg`, `.bzr` or `.cvs`; nothing beneath such a directory is
dispatched. For an entry below a root the base name tested is the name of the
entry. In the repository `/repo` holding `.git/hooks/x.go`, `.git/y.go` and
`main.go`, only `main.go` is dispatched. -/
theorem Scan_skips_vcs_dirs (env : Env) (roots : List String)
    (ms is : List regexp.Regexp) :
    (∀ p ∈ (Scan env roots { init with matchRegex := ms, ignoreRegex := is }).1.dispatched,
      ∃ root ∈ roots, ∃ node, env.Lstat root = .ok node ∧ p ∈ outsideVCS root node) ∧
    (∀ path name : String, filepath.IsEntryName name →
      isVCSDir (filepath.Base (filepath.Join path name)) = isVCSDir name) ∧
    (Scan scenario.envRepo ["/repo"] init).1.dispatched = ["/repo/main.go"] := by
  refine ⟨?_, ?_, by decide⟩
  · intro p hp
    rcases Scan_outsideVCS env roots _ p hp with h | h
    · exact absurd h (by simp [ScanState.dispatched, init])
    · exact h
  · intro path name hname
    rw [filepath.Base_Join path name hname]

/-- C2 amended, at an input: the directory `.git` of `/repo` is visited at a
path whose base name is `.git`, and is pruned there. -/
theorem Scan_skips_vcs_dirs_witness :
    filepath.IsEntryName ".git" ∧
    isVCSDir (filepath.Base (filepath.Join "/repo" ".git")) = isVCSDir ".git" ∧
    outsideVCS "/repo" (.dir "repo" none
      [.dir ".git" none [.dir "hooks" none [.file "x.go"], .file "y.go"],
        .file "main.go"]) = ["/repo/main.go"] :=
  ⟨by unfold filepath.IsEntryName; decide,
   (Scan_skips_vcs_dirs scenario.envRepo ["/repo"] [] []).2.1 "/repo" ".git"
     (by unfold filepath.IsEntryName; decide),
   by decide⟩

/-- C3: whatever the roots (overlapping or repeated ones included), the tree
and the patterns, each path is dispatched at most once in a whole run of
`Scan`. With the roots `/r1` and `/r1/r2`, the latter holding `x.go`, the path
`/r1/r2/x.go` is dispatched exactly once, in either order of the roots and
also when a root is repeated. -/
theorem Scan_dispatches_once (env : Env) (roots : List String)
    (ms is : List regexp.Regexp) (p : String) :
    (Scan env roots { init with matchRegex := ms, ignoreRegex := is }).1.dispatched.count p
      ≤ 1 ∧
    (Scan scenario.envOverlap ["/r1", "/r1/r2"] init).1.dispatched.count "/r1/r2/x.go" = 1 ∧
    (Scan scenario.envOverlap ["/r1/r2", "/r1"] init).1.dispatched.count "/r1/r2/x.go" = 1 ∧
    (Scan scenario.envOverlap ["/r1", "/r1"] init).1.dispatched.count "/r1/r2/x.go" = 1 := by
  refine ⟨?_, by decide, by decide, by decide⟩
  have hinit : SeenInv { init with matchRegex := ms, ignoreRegex := is } := by
    constructor
    · simp [ScanState.dispatched, init]
    · intro q hq
      simp [ScanState.dispatched, init] at hq
  have h := Scan_keeps env SeenInv (fun s path d err => handler_SeenInv env s path d err)
    (fun s root g hs => hs) roots _ hinit
  exact List.nodup_iff_count_le_one.1 h.1 p

/-- C4: a file whose extension (of its base name) is absent from the
supported-language registry is never dispatched, whatever the patterns and the
ignore file say: `handler` leaves the whole state, the seen-path index
included, as it was and returns nil; on any entry at that path (directory or
reported with an error as well) nothing is dispatched and the index is
unchanged. -/
theorem handler_unsupported_extension (env : Env) (s : ScanState) (path : String)
    (d : fs.DirEntry) (err : Option fs.Error)
    (hext : env.SupportedLanguages (filepath.Ext (filepath.Base path)) = false) :
    (handler env s path d err).1.AddLanguage = s.AddLanguage ∧
    (handler env s path d err).1.uniqueDirSet = s.uniqueDirSet ∧
    (d.IsDir = false → handler env s path d none = (s, none)) := by
  have hfile : d.IsDir = false → handler env s path d none = (s, none) := by
    intro hd
    rw [handler_file env s path d hd]
    have hp : passes env s path = false := by
      cases h : passes env s path with
      | false => rfl
      | true =>
        have := ((passes_iff env s path).1 h).2.2.2.1
        rw [hext] at this
        exact absurd this (by decide)
    simp [hp]
  by_cases h : d.IsDir = true ∨ err ≠ none
  · exact ⟨(handler_dir_keeps env s path d err h).1, (handler_dir_keeps env s path d err h).2,
      hfile⟩
  · have hd : d.IsDir = false := by
      cases hb : d.IsDir with
      | false => rfl
      | true => exact absurd (Or.inl hb) h
    have he : err = none := by
      cases err with
      | none => rfl
      | some e => exact absurd (Or.inr (by simp)) h
    subst he
    rw [hfile hd]
    exact ⟨rfl, rfl, fun _ => rfl⟩

/-- C4, at an input: `/r/notes.txt` matches no ignore rule and no match pattern
is configured, yet it is not dispatched, for `.txt` is not in the registry. -/
theorem handler_unsupported_extension_witness :
    scenario.envFiles.SupportedLanguages (filepath.Ext (filepath.Base "/r/notes.txt")) =
      false ∧
    (handler scenario.envFiles { init with currentRootDir := "/r" } "/r/notes.txt"
        ⟨"notes.txt", false⟩ none).1.AddLanguage = [] ∧
    (handler scenario.envFiles { init with currentRootDir := "/r" } "/r/notes.txt"
        ⟨"notes.txt", false⟩ none).1.uniqueDirSet = utils.NewSet :=
  ⟨by decide,
   (handler_unsupported_extension scenario.envFiles { init with currentRootDir := "/r" }
      "/r/notes.txt" ⟨"notes.txt", false⟩ none (by decide)).1,
   (handler_unsupported_extension scenario.envFiles { init with currentRootDir := "/r" }
      "/r/notes.txt" ⟨"notes.txt", false⟩ none (by decide)).2.1⟩

/-- C5: a file entry whose root-relative path matches an ignore pattern is
rejected by `handler` (nothing dispatched, state and seen-path index unchanged,
nil returned) whatever the match patterns and the ignore-file matcher say.
Scenario: with the match pattern `\.go$` and the ignore pattern `_test\.go$`,
of the files `a.go`, `a_test.go` and `a.py` under the root `/r`, `Scan`
dispatches `a.go` only. -/
theorem handler_ignore_pattern_rejects (env : Env) (s : ScanState) (path : String)
    (d : fs.DirEntry) (hd : d.IsDir = false)
    (hi : ∃ re ∈ s.ignoreRegex,
      re.MatchString (strings.TrimPrefix path s.currentRootDir) = true) :
    handler env s path d none = (s, none) ∧
    (Scan scenario.envFiles ["/r"] scenario.goNoTests).1.AddLanguage =
      [(".go", ⟨"/r/a.go"⟩)] ∧
    (Scan scenario.envFiles ["/r"] scenario.goNoTests).1.uniqueDirSet = ⟨["/r/a.go"]⟩ :=
  ⟨handler_file_ignored env s path d hd hi, by decide, by decide⟩

/-- C5, at an input: `/r/a_test.go` matches the match pattern `\.go$` and the
ignore pattern `_test\.go$`, and is rejected. -/
theorem handler_ignore_pattern_rejects_witness :
    (⟨"a_test.go", false⟩ : fs.DirEntry).IsDir = false ∧
    (∃ re ∈ scenario.goNoTestsInR.ignoreRegex,
      re.MatchString
        (strings.TrimPrefix "/r/a_test.go" scenario.goNoTestsInR.currentRootDir) = true) ∧
    (∃ re ∈ scenario.goNoTestsInR.matchRegex,
      re.MatchString
        (strings.TrimPrefix "/r/a_test.go" scenario.goNoTestsInR.currentRootDir) = true) ∧
    handler scenario.envFiles scenario.goNoTestsInR "/r/a_test.go" ⟨"a_test.go", false⟩
      none = (scenario.goNoTestsInR, none) :=
  ⟨rfl, by decide, by decide,
   (handler_ignore_pattern_rejects scenario.envFiles scenario.goNoTestsInR "/r/a_test.go"
      ⟨"a_test.go", false⟩ rfl (by decide)).1⟩

/-- C6, refuted as stated: a file that matches both a match pattern and an
ignore pattern, with a supported extension, not yet seen and with a handle that
can be made, is not always dispatched. -/
theorem match_and_ignore_dispatch_fails :
    ¬ ∀ (env : Env) (s : ScanState) (path : String) (d : fs.DirEntry),
      d.IsDir = false →
      (∃ re ∈ s.matchRegex,
        re.MatchString (strings.TrimPrefix path s.currentRootDir) = true) →
      (∃ re ∈ s.ignoreRegex,
        re.MatchString (strings.TrimPrefix path s.currentRootDir) = true) →
      env.SupportedLanguages (filepath.Ext (filepath.Base path)) = true →
      s.uniqueDirSet.Contains path = false →
      env.newCodeFileErr path = none →
      handler env s path d none = (dispatch s path, none) := by
  intro h
  have h1 := h scenario.envFiles { scenario.goNoTests with currentRootDir := "/src" }
    "/src/pkg/b_test.go" ⟨"b_test.go", false⟩ rfl (by decide) (by decide) (by decide)
    (by decide) rfl
  have h2 := congrArg (fun r => r.1.AddLanguage.length) h1
  revert h2
  decide

/-- C6, amended: a file entry that matches both a match pattern and an ignore
pattern is rejected by `handler`: nothing is dispatched, the state and the
seen-path index are unchanged and nil is returned. A match pattern overrides
the ignore file only, never an ignore pattern. -/
theorem handler_match_and_ignore_rejects (env : Env) (s : ScanState) (path : String)
    (d : fs.DirEntry) (hd : d.IsDir = false)
    (_hm : ∃ re ∈ s.matchRegex,
      re.MatchString (strings.TrimPrefix path s.currentRootDir) = true)
    (hi : ∃ re ∈ s.ignoreRegex,
      re.MatchString (strings.TrimPrefix path s.currentRootDir) = true) :
    handler env s path d none = (s, none) ∧
    (handler env s path d none).1.AddLanguage = s.AddLanguage ∧
    (handler env s path d none).1.uniqueDirSet = s.uniqueDirSet := by
  rw [handler_file_ignored env s path d hd hi]
  exact ⟨rfl, rfl, rfl⟩

/-- C6 amended, at an input: `/src/pkg/b_test.go` under the root `/src`. -/
theorem handler_match_and_ignore_rejects_witness :
    (⟨"b_test.go", false⟩ : fs.DirEntry).IsDir = false ∧
    (∃ re ∈ ({ scenario.goNoTests with currentRootDir := "/src" } : ScanState).matchRegex,
      re.MatchString (strings.TrimPrefix "/src/pkg/b_test.go" "/src") = true) ∧
    (∃ re ∈ ({ scenario.goNoTests with currentRootDir := "/src" } : ScanState).ignoreRegex,
      re.MatchString (strings.TrimPrefix "/src/pkg/b_test.go" "/src") = true) ∧
    (handler scenario.envFiles { scenario.goNoTests with currentRootDir := "/src" }
      "/src/pkg/b_test.go" ⟨"b_test.go", false⟩ none).1.AddLanguage = [] :=
  ⟨rfl, by decide, by decide,
   (handler_match_and_ignore_rejects scenario.envFiles
      { scenario.goNoTests with currentRootDir := "/src" } "/src/pkg/b_test.go"
      ⟨"b_test.go", false⟩ rfl (by decide) (by decide)).2.1⟩

/-- C7, refuted as stated in its last sentence: a gitignored file that matches
a match pattern, matches no ignore pattern, has a supported extension and is
unseen is not dispatched when its code-file handle cannot be made. -/
theorem gitignored_matched_dispatch_fails :
    ¬ ∀ (env : Env) (s : ScanState) (path : String) (d : fs.DirEntry),
      d.IsDir = false →
      gitIgnoreMatches s (strings.TrimPrefix path s.currentRootDir) = true →
      (∃ re ∈ s.matchRegex,
        re.MatchString (strings.TrimPrefix path s.currentRootDir) = true) →
      (∀ re ∈ s.ignoreRegex,
        re.MatchString (strings.TrimPrefix path s.currentRootDir) = false) →
      env.SupportedLanguages (filepath.Ext (filepath.Base path)) = true →
      s.uniqueDirSet.Contains path = false →
      handler env s path d none = (dispatch s path, none) := by
  intro h
  have h1 := h scenario.envUnreadable scenario.goIgnoredInR "/r/a.go" ⟨"a.go", false⟩ rfl
    (by decide) (by decide) (by decide) (by decide) (by decide)
  have h2 := congrArg (fun r => r.1.AddLanguage.length) h1
  revert h2
  decide

/-- C7, amended: for a file entry whose root-relative path matches a match
pattern, the outcome of `handler` (dispatch or reject, dispatch record,
seen-path index, error returned) is the same for every ignore-file map; and
such a file, when it is gitignored, matches no ignore pattern, has a supported
extension, is unseen and its code-file handle can be made, is dispatched. -/
theorem handler_match_overrides_ignore_file (env : Env) (s : ScanState) (path : String)
    (d : fs.DirEntry) (hd : d.IsDir = false)
    (hm : ∃ re ∈ s.matchRegex,
      re.MatchString (strings.TrimPrefix path s.currentRootDir) = true) :
    (∀ g : String → Option ignore.GitIgnore,
      handler env { s with gitIgnoreMap := g } path d none =
        ({ (handler env s path d none).1 with gitIgnoreMap := g },
          (handler env s path d none).2)) ∧
    (gitIgnoreMatches s (strings.TrimPrefix path s.currentRootDir) = true →
      (∀ re ∈ s.ignoreRegex,
        re.MatchString (strings.TrimPrefix path s.currentRootDir) = false) →
      env.SupportedLanguages (filepath.Ext (filepath.Base path)) = true →
      s.uniqueDirSet.Contains path = false →
      env.newCodeFileErr path = none →
      handler env s path d none = (dispatch s path, none)) := by
  constructor
  · intro g
    rw [handler_file env s path d hd, handler_file env _ path d hd,
      passes_gitIgnoreMap env s path g hm]
    cases passes env s path <;> simp [dispatch]
  · intro _ hi hx hu hn
    rw [handler_file env s path d hd]
    have hp : passes env s path = true :=
      (passes_iff env s path).2 ⟨Or.inr hm, Or.inl hm, hi, hx, hu, hn⟩
    simp [hp]

/-- C7 amended, at an input: `/r/a.go` matches `\.go$` and is ignored by the
ignore file of `/r`; it is dispatched all the same. -/
theorem handler_match_overrides_ignore_file_witness :
    (⟨"a.go", false⟩ : fs.DirEntry).IsDir = false ∧
    (∃ re ∈ scenario.goIgnoredInR.matchRegex,
      re.MatchString (strings.TrimPrefix "/r/a.go" scenario.goIgnoredInR.currentRootDir) =
        true) ∧
    gitIgnoreMatches scenario.goIgnoredInR
      (strings.TrimPrefix "/r/a.go" scenario.goIgnoredInR.currentRootDir) = true ∧
    handler scenario.envFiles scenario.goIgnoredInR "/r/a.go" ⟨"a.go", false⟩ none =
      (dispatch scenario.goIgnoredInR "/r/a.go", none) :=
  ⟨rfl, by decide, by decide,
   (handler_match_overrides_ignore_file scenario.envFiles scenario.goIgnoredInR "/r/a.go"
      ⟨"a.go", false⟩ rfl (by decide)).2 (by decide) (by decide) (by decide) (by decide) rfl⟩

/-- C8: when at least one match pattern is configured, a file entry whose
root-relative path matches none of them is rejected by `handler` (nothing
dispatched, state and seen-path index unchanged, nil returned), whatever its
extension, the ignore patterns and the ignore file. -/
theorem handler_unmatched_rejects (env : Env) (s : ScanState) (path : String)
    (d : fs.DirEntry) (hd : d.IsDir = false) (hne : s.matchRegex ≠ [])
    (hno : ∀ re ∈ s.matchRegex,
      re.MatchString (strings.TrimPrefix path s.currentRootDir) = false) :
    handler env s path d none = (s, none) := by
  rw [handler_file env s path d hd]
  have hp : passes env s path = false := by
    cases h : passes env s path with
    | false => rfl
    | true =>
      rcases ((passes_iff env s path).1 h).1 with h1 | ⟨re, hre, hmatch⟩
      · exact absurd h1 hne
      · rw [hno re hre] at hmatch
        exact absurd hmatch (by decide)
  simp [hp]

/-- C8, at an input: with the match pattern `\.go$`, the supported file
`/r/a.py` is rejected. -/
theorem handler_unmatched_rejects_witness :
    (⟨"a.py", false⟩ : fs.DirEntry).IsDir = false ∧
    scenario.goNoTestsInR.matchRegex ≠ [] ∧
    (∀ re ∈ scenario.goNoTestsInR.matchRegex,
      re.MatchString (strings.TrimPrefix "/r/a.py" scenario.goNoTestsInR.currentRootDir) =
        false) ∧
    scenario.envFiles.SupportedLanguages (filepath.Ext (filepath.Base "/r/a.py")) = true ∧
    handler scenario.envFiles scenario.goNoTestsInR "/r/a.py" ⟨"a.py", false⟩ none =
      (scenario.goNoTestsInR, none) :=
  ⟨rfl, List.cons_ne_nil _ _, by decide, by decide,
   handler_unmatched_rejects scenario.envFiles scenario.goNoTestsInR "/r/a.py"
     ⟨"a.py", false⟩ rfl (List.cons_ne_nil _ _) (by decide)⟩

/-- A directory entry whose base name is not a version-control name and for
which the ignore-file matcher of the current root matches the string `handler`
passes to it makes `handler` return the skip-directory signal, whatever the
match and ignore patterns; the walk of the directory is then that single call,
whatever lies beneath it, and nothing is dispatched nor added to the seen-path
index. -/
theorem handler_prunes_gitignored_dir (env : Env) (s : ScanState) (path : String)
    (d : fs.DirEntry) (hd : d.IsDir = true)
    (hvcs : isVCSDir (filepath.Base path) = false)
    (hgi : gitIgnoreMatches s (strings.TrimPrefix path s.currentRootDir) = true) :
    (handler env s path d none).2 = some fs.Error.SkipDir ∧
    (handler env s path d none).1.AddLanguage = s.AddLanguage ∧
    (handler env s path d none).1.uniqueDirSet = s.uniqueDirSet ∧
    (∀ name readErr children,
      walkDir env path (.dir name readErr children) s =
        ((handler env s path d none).1, none)) := by
  have hh : ∀ d' : fs.DirEntry, d'.IsDir = true →
      handler env s path d' none = (capture env s path, some fs.Error.SkipDir) := by
    intro d' hd'
    rw [handler_dir env s path d' hd', hvcs, hgi]
    simp
  refine ⟨by rw [hh d hd], by rw [hh d hd]; exact (capture_fields env s path).2.2.2.2.2,
    by rw [hh d hd]; exact (capture_fields env s path).1, ?_⟩
  intro name readErr children
  simp only [walkDir]
  rw [hh ⟨name, true⟩ rfl, hh d hd]
  simp

/-- The pruning at an input: the directory `/r/build` under the root `/r`,
when the ignore file of the root matches every path. -/
theorem handler_prunes_gitignored_dir_witness :
    (⟨"build", true⟩ : fs.DirEntry).IsDir = true ∧
    isVCSDir (filepath.Base "/r/build") = false ∧
    gitIgnoreMatches scenario.allIgnoredInR
      (strings.TrimPrefix "/r/build" scenario.allIgnoredInR.currentRootDir) = true ∧
    (handler scenario.envFiles scenario.allIgnoredInR "/r/build" ⟨"build", true⟩ none).2 =
      some fs.Error.SkipDir ∧
    (handler scenario.envFiles scenario.allIgnoredInR "/r/build" ⟨"build", true⟩
      none).1.AddLanguage = scenario.allIgnoredInR.AddLanguage :=
  ⟨rfl, by decide, by decide,
   (handler_prunes_gitignored_dir scenario.envFiles scenario.allIgnoredInR "/r/build"
      ⟨"build", true⟩ rfl (by decide) (by decide)).1,
   (handler_prunes_gitignored_dir scenario.envFiles scenario.allIgnoredInR "/r/build"
      ⟨"build", true⟩ rfl (by decide) (by decide)).2.1⟩

/-- C9, the code at the failing input: the root `/r` holds the ignore file with
the rule `build/`, the file `build/out.go` and the file `main.go`. The matcher
of the rule matches `build/` and `/build/out.go` but not `/build`, the string
without trailing separator that `handler` passes for the directory. So
`handler` returns nil on `/r/build` instead of the skip-directory signal, and
the walk enters the directory: the walk of `build` differs from the walk of an
empty `build` once a match pattern is configured. With no pattern `out.go` is
met and rejected as a file; with the match pattern `\.go$` it is dispatched. -/
theorem dir_rule_not_pruned :
    scenario.buildRule.MatchesPath "build/" = true ∧
    scenario.buildRule.MatchesPath "/build/out.go" = true ∧
    scenario.buildRule.MatchesPath "/build" = false ∧
    strings.TrimPrefix "/r/build" scenario.buildInR.currentRootDir = "/build" ∧
    gitIgnoreMatches scenario.buildInR "/build" = false ∧
    (handler scenario.envBuild scenario.buildInR "/r/build" ⟨"build", true⟩ none).2 = none ∧
    (Scan scenario.envBuild ["/r"] init).1.dispatched = ["/r/main.go"] ∧
    (walkDir scenario.envBuild "/r/build" (.dir "build" none [.file "out.go"])
      { scenario.buildInR with matchRegex := [scenario.goRe] }).1.dispatched =
      ["/r/build/out.go"] ∧
    (walkDir scenario.envBuild "/r/build" (.dir "build" none [])
      { scenario.buildInR with matchRegex := [scenario.goRe] }).1.dispatched = [] ∧
    (Scan scenario.envBuild ["/r"]
      { init with matchRegex := [scenario.goRe] }).1.dispatched =
      ["/r/build/out.go", "/r/main.go"] := by
  decide

/-- C10: the order of the patterns inside the match list and inside the ignore
list does not affect the outcome. For every entry and every permutation of the
two lists, `handler` returns the same error and leaves the same state (the
same dispatch record, seen-path index and captured subdirectories), the
permuted lists themselves apart; in particular a file entry is dispatched
under the one order exactly when it is under the other. -/
theorem handler_pattern_order (env : Env) (s : ScanState) (path : String)
    (d : fs.DirEntry) (err : Option fs.Error) (ms is : List regexp.Regexp)
    (hms : ms.Perm s.matchRegex) (his : is.Perm s.ignoreRegex) :
    handler env { s with matchRegex := ms, ignoreRegex := is } path d err =
      ({ (handler env s path d err).1 with matchRegex := ms, ignoreRegex := is },
        (handler env s path d err).2) ∧
    (d.IsDir = false →
      (handler env { s with matchRegex := ms, ignoreRegex := is } path d none =
          (dispatch { s with matchRegex := ms, ignoreRegex := is } path, none) ↔
        handler env s path d none = (dispatch s path, none))) := by
  constructor
  · cases err with
    | some e => simp [handler]
    | none =>
      cases hd : d.IsDir with
      | false =>
        rw [handler_file env s path d hd, handler_file env _ path d hd,
          passes_perm env s path ms is hms his]
        cases passes env s path <;> simp [dispatch]
      | true =>
        rw [handler_dir env s path d hd, handler_dir env _ path d hd]
        have hc : capture env { s with matchRegex := ms, ignoreRegex := is } path =
            { capture env s path with matchRegex := ms, ignoreRegex := is } := by
          unfold capture
          split <;> rfl
        rw [hc]
        have hg : gitIgnoreMatches { s with matchRegex := ms, ignoreRegex := is }
            (strings.TrimPrefix path s.currentRootDir) =
            gitIgnoreMatches s (strings.TrimPrefix path s.currentRootDir) := rfl
        simp only [hg]
        split <;> rfl
  · intro hd
    rw [handler_file env s path d hd, handler_file env _ path d hd,
      passes_perm env s path ms is hms his]
    cases passes env s path with
    | true => simp
    | false =>
      have h1 := (dispatch_ne s path).symm
      have h2 := (dispatch_ne { s with matchRegex := ms, ignoreRegex := is } path).symm
      simp [Prod.ext_iff, h1, h2]

/-- C10, at an input: `/r/a_test.go` is rejected with the lists
`[\.go$, _test\.go$]` and `[_test\.go$, \.go$]` in either order. -/
theorem handler_pattern_order_witness :
    [scenario.testRe, scenario.goRe].Perm
      ({ scenario.goNoTestsInR with
          matchRegex := [scenario.goRe, scenario.testRe] } : ScanState).matchRegex ∧
    [scenario.testRe].Perm
      ({ scenario.goNoTestsInR with
          matchRegex := [scenario.goRe, scenario.testRe] } : ScanState).ignoreRegex ∧
    handler scenario.envFiles
      { ({ scenario.goNoTestsInR with
            matchRegex := [scenario.goRe, scenario.testRe] } : ScanState) with
          matchRegex := [scenario.testRe, scenario.goRe], ignoreRegex := [scenario.testRe] }
      "/r/a_test.go" ⟨"a_test.go", false⟩ none =
      ({ (handler scenario.envFiles
            { scenario.goNoTestsInR with matchRegex := [scenario.goRe, scenario.testRe] }
            "/r/a_test.go" ⟨"a_test.go", false⟩ none).1 with
          matchRegex := [scenario.testRe, scenario.goRe], ignoreRegex := [scenario.testRe] },
        (handler scenario.envFiles
            { scenario.goNoTestsInR with matchRegex := [scenario.goRe, scenario.testRe] }
            "/r/a_test.go" ⟨"a_test.go", false⟩ none).2) :=
  ⟨List.Perm.swap _ _ _, List.Perm.refl _,
   (handler_pattern_order scenario.envFiles
      { scenario.goNoTestsInR with matchRegex := [scenario.goRe, scenario.testRe] }
      "/r/a_test.go" ⟨"a_test.go", false⟩ none [scenario.testRe, scenario.goRe]
      [scenario.testRe] (List.Perm.swap _ _ _) (List.Perm.refl _)).1⟩

/-- C11, refuted as stated: `Config` cuts a pattern string at single space
characters only. Two fragments separated by a tab become one matcher, and two
fragments separated by two spaces become three matchers, the middle one for
the empty expression; in both cases the fields of the input are the two
fragments. The same holds for the ignore list. -/
theorem Config_cuts_at_spaces_only :
    strings.Fields "a\tb" = ["a", "b"] ∧
    (Config scenario.anyEngine init "a\tb" "").map (fun s => sources s.matchRegex) =
      some ["a\tb"] ∧
    strings.Fields "a  b" = ["a", "b"] ∧
    (Config scenario.anyEngine init "a  b" "").map (fun s => sources s.matchRegex) =
      some ["a", "", "b"] ∧
    (Config scenario.anyEngine init "" "a\tb").map (fun s => sources s.ignoreRegex) =
      some ["a\tb"] ∧
    (Config scenario.anyEngine init "" "a  b").map (fun s => sources s.ignoreRegex) =
      some ["a", "", "b"] := by
  decide

/-- C11, amended: for pattern strings whose fragments are separated by exactly
one space character each, with any white space before the first and after the
last, and whose fragments all compile, `Config` appends to the match list and
to the ignore list exactly one matcher per fragment, in the order of the
fragments, and changes nothing else: the sources of the appended matchers are
the non-empty whitespace-delimited fields of the input, and each matcher
matches what the engine says for its source. -/
theorem Config_single_spaced (eng : regexp.Engine) (s : ScanState)
    (matchRegexStr ignoreRegexStr : String) (matchFragments ignoreFragments : List String)
    (hm : SingleSpaced matchRegexStr matchFragments)
    (hi : SingleSpaced ignoreRegexStr ignoreFragments)
    (hcm : ∀ f ∈ matchFragments, eng.compileErr f = none)
    (hci : ∀ f ∈ ignoreFragments, eng.compileErr f = none) :
    Config eng s matchRegexStr ignoreRegexStr =
      some { s with
        matchRegex :=
          s.matchRegex ++ matchFragments.map (fun f => ⟨f, eng.MatchString f⟩)
        ignoreRegex :=
          s.ignoreRegex ++ ignoreFragments.map (fun f => ⟨f, eng.MatchString f⟩) } ∧
    sources (matchFragments.map (fun f => ⟨f, eng.MatchString f⟩)) =
      strings.Fields matchRegexStr ∧
    sources (ignoreFragments.map (fun f => ⟨f, eng.MatchString f⟩)) =
      strings.Fields ignoreRegexStr ∧
    (matchFragments.map (fun f => (⟨f, eng.MatchString f⟩ : regexp.Regexp))).length =
      (strings.Fields matchRegexStr).length ∧
    (ignoreFragments.map (fun f => (⟨f, eng.MatchString f⟩ : regexp.Regexp))).length =
      (strings.Fields ignoreRegexStr).length := by
  have hsrc : ∀ fs : List String,
      sources (fs.map (fun f => ⟨f, eng.MatchString f⟩)) = fs := by
    intro fs
    unfold sources
    rw [List.map_map]
    exact List.map_id _
  refine ⟨?_, ?_, ?_, ?_, ?_⟩
  · unfold Config
    rw [configList_single_spaced eng matchRegexStr matchFragments s.matchRegex hm hcm,
      configList_single_spaced eng ignoreRegexStr ignoreFragments s.ignoreRegex hi hci]
  · rw [hsrc, Fields_single_spaced matchRegexStr matchFragments hm]
  · rw [hsrc, Fields_single_spaced ignoreRegexStr ignoreFragments hi]
  · rw [List.length_map, Fields_single_spaced matchRegexStr matchFragments hm]
  · rw [List.length_map, Fields_single_spaced ignoreRegexStr ignoreFragments hi]

/-- C11 amended, at an input: the match string ` \.go$ \.py$ ` gives the two
matchers `\.go$` and `\.py$`, the ignore string `_test\.go$` gives one. -/
theorem Config_single_spaced_witness :
    SingleSpaced " \\.go$ \\.py$ " ["\\.go$", "\\.py$"] ∧
    SingleSpaced "_test\\.go$" ["_test\\.go$"] ∧
    (Config scenario.anyEngine init " \\.go$ \\.py$ " "_test\\.go$").map
        (fun s => (sources s.matchRegex, sources s.ignoreRegex)) =
      some (["\\.go$", "\\.py$"], ["_test\\.go$"]) ∧
    strings.Fields " \\.go$ \\.py$ " = ["\\.go$", "\\.py$"] :=
  ⟨⟨by decide, [' '], [' '], by decide, by decide, by decide⟩,
   ⟨by decide, [], [], by decide, by decide, by decide⟩,
   by
    rw [(Config_single_spaced scenario.anyEngine init " \\.go$ \\.py$ " "_test\\.go$"
      ["\\.go$", "\\.py$"] ["_test\\.go$"]
      ⟨by decide, [' '], [' '], by decide, by decide, by decide⟩
      ⟨by decide, [], [], by decide, by decide, by decide⟩
      (fun _ _ => rfl) (fun _ _ => rfl)).1]
    decide,
   by decide⟩

/-- C12: a pattern string that is empty or made of white space only produces
no matcher. `Config` leaves the list it stands for as it is, whatever the other
string; with both strings blank the state is unchanged, so from the initial
state both lists stay empty. With both lists empty no pattern filtering is
applied: a file entry is dispatched exactly when the ignore file does not
match it, its extension is supported, it is unseen and its handle is made. -/
theorem Config_blank (eng : regexp.Engine) (s : ScanState) (blank other : String)
    (h : ∀ c ∈ blank.data, strings.isSpace c = true) :
    configList eng blank s.matchRegex = some s.matchRegex ∧
    configList eng blank s.ignoreRegex = some s.ignoreRegex ∧
    Config eng s blank other =
      (configList eng other s.ignoreRegex).map (fun list => { s with ignoreRegex := list }) ∧
    Config eng s other blank =
      (configList eng other s.matchRegex).map (fun list => { s with matchRegex := list }) ∧
    Config eng s blank blank = some s ∧
    Config eng init blank blank = some init ∧
    init.matchRegex = [] ∧ init.ignoreRegex = [] ∧
    (∀ (env : Env) (t : ScanState) (path : String) (d : fs.DirEntry),
      t.matchRegex = [] → t.ignoreRegex = [] → d.IsDir = false →
      (handler env t path d none = (dispatch t path, none) ↔
        gitIgnoreMatches t (strings.TrimPrefix path t.currentRootDir) = false ∧
        env.SupportedLanguages (filepath.Ext (filepath.Base path)) = true ∧
        t.uniqueDirSet.Contains path = false ∧
        env.newCodeFileErr path = none)) := by
  have hb : ∀ list, configList eng blank list = some list :=
    fun list => configList_blank eng blank list h
  refine ⟨hb _, hb _, ?_, ?_, ?_, ?_, rfl, rfl, ?_⟩
  · unfold Config
    rw [hb]
    cases configList eng other s.ignoreRegex <;> rfl
  · unfold Config
    rw [hb]
    cases configList eng other s.matchRegex <;> rfl
  · unfold Config
    rw [hb, hb]
  · unfold Config
    rw [hb, hb]
  · intro env t path d hmr hir hd
    rw [handler_file env t path d hd]
    have hp : passes env t path =
        (!(gitIgnoreMatches t (strings.TrimPrefix path t.currentRootDir)) &&
          env.SupportedLanguages (filepath.Ext (filepath.Base path)) &&
          !(t.uniqueDirSet.Contains path) && (env.newCodeFileErr path).isNone) := by
      simp [passes, hmr, hir]
    have hne := (dispatch_ne t path).symm
    cases hpass : passes env t path with
    | true =>
      rw [hp] at hpass
      simp only [Bool.and_eq_true, Bool.not_eq_true', Option.isNone_iff_eq_none] at hpass
      simp [hpass.1.1.1, hpass.1.1.2, hpass.1.2, hpass.2]
    | false =>
      rw [hp] at hpass
      simp only [Bool.false_eq_true, if_false, Prod.mk.injEq, hne, and_true, false_iff]
      intro hall
      rw [hall.1, hall.2.1, hall.2.2.1, hall.2.2.2] at hpass
      exact absurd hpass (by decide)

/-- C12, at an input: a pattern string of two spaces and a tab. -/
theorem Config_blank_witness :
    (∀ c ∈ ("  \t" : String).data, strings.isSpace c = true) ∧
    Config scenario.anyEngine init "  \t" "  \t" = some init ∧
    (Config scenario.anyEngine init "  \t" "_test\\.go$").map
        (fun s => (sources s.matchRegex, sources s.ignoreRegex)) =
      some ([], ["_test\\.go$"]) :=
  ⟨by decide,
   (Config_blank scenario.anyEngine init "  \t" "" (by decide)).2.2.2.2.2.1,
   by decide⟩

/-- C13, refuted as stated: the path `a/ /b` has three non-empty elements
between separators, yet `isSpecifiedDepthDirs` counts two segments; and the
path made of one space has one non-empty element and no segment. -/
theorem blank_element_not_counted :
    nonEmptyElements "a/ /b" = 3 ∧
    isSpecifiedDepthDirs "a/ /b" 3 = false ∧
    isSpecifiedDepthDirs "a/ /b" 2 = true ∧
    nonEmptyElements " " = 1 ∧
    isSpecifiedDepthDirs " " 1 = false := by
  decide

/-- C13, amended: for every path and every depth, `isSpecifiedDepthDirs`
returns true if and only if the path has exactly that many segments, a segment
being an element between separators that is not empty once the white space
around it is trimmed; when no element is made of white space only, these are
the non-empty elements. So the empty path and `/` have no segment, `/a` and `a`
one, `/a/b` two, and no path has a negative number of them. -/
theorem isSpecifiedDepthDirs_counts_segments (path : String) (depth : Int) :
    (isSpecifiedDepthDirs path depth = true ↔ ((pathSegments path).length : Int) = depth) ∧
    ((∀ elem ∈ filepath.splitSep path.data [], elem ≠ [] →
        strings.TrimSpace ⟨elem⟩ ≠ "") →
      (isSpecifiedDepthDirs path depth = true ↔ (nonEmptyElements path : Int) = depth)) ∧
    (depth < 0 → isSpecifiedDepthDirs path depth = false) ∧
    (isSpecifiedDepthDirs "" 0 = true ∧ isSpecifiedDepthDirs "/" 0 = true ∧
      isSpecifiedDepthDirs "/a" 1 = true ∧ isSpecifiedDepthDirs "a" 1 = true ∧
      isSpecifiedDepthDirs "/a/b" 2 = true ∧ isSpecifiedDepthDirs "/a/b" 1 = false) := by
  refine ⟨isSpecifiedDepthDirs_iff path depth, ?_, ?_, by decide⟩
  · intro h
    rw [isSpecifiedDepthDirs_iff, pathSegments_length path h]
  · intro hneg
    cases hb : isSpecifiedDepthDirs path depth with
    | false => rfl
    | true =>
      have := (isSpecifiedDepthDirs_iff path depth).1 hb
      omega

/-- C13 amended, at an input: `/src/pkg` has no element of white space only
and two segments. -/
theorem isSpecifiedDepthDirs_counts_segments_witness :
    (∀ elem ∈ filepath.splitSep ("/src/pkg" : String).data [], elem ≠ [] →
      strings.TrimSpace ⟨elem⟩ ≠ "") ∧
    (isSpecifiedDepthDirs "/src/pkg" 2 = true ↔ (nonEmptyElements "/src/pkg" : Int) = 2) ∧
    nonEmptyElements "/src/pkg" = 2 :=
  ⟨by decide,
   (isSpecifiedDepthDirs_counts_segments "/src/pkg" 2).2.1 (by decide),
   by decide⟩

/-- C14: in directory-summary mode `handler` on a directory entry appends the
root-relative path of the directory to the captured list exactly when the base
name is not a version-control name and the root-relative path is one segment
deep; in every other case, on file entries, on entries reported with an error
and in any other view mode the list is unchanged. The capture does not depend
on the ignore file: a gitignored directory one segment deep is captured and
then pruned. Scenario: under the root `/r` with the tree `/r/a/b/c.go`, `a` is
captured (as `/a`), `a/b` and the root are not. -/
theorem handler_captures_depth_one (env : Env) (s : ScanState) (path : String)
    (d : fs.DirEntry) (err : Option fs.Error) :
    ((handler env s path d err).1.SubDirs =
        s.SubDirs ++ [strings.TrimPrefix path s.currentRootDir] ↔
      env.ViewMode = view_mode.ViewMode.ViewModeDirs ∧ d.IsDir = true ∧ err = none ∧
        isVCSDir (filepath.Base path) = false ∧
        isSpecifiedDepthDirs (strings.TrimPrefix path s.currentRootDir) 1 = true) ∧
    ((handler env s path d err).1.SubDirs ≠
        s.SubDirs ++ [strings.TrimPrefix path s.currentRootDir] →
      (handler env s path d err).1.SubDirs = s.SubDirs) ∧
    (isSpecifiedDepthDirs (strings.TrimPrefix path s.currentRootDir) 1 = true ↔
      (pathSegments (strings.TrimPrefix path s.currentRootDir)).length = 1) ∧
    (∀ g : String → Option ignore.GitIgnore,
      (handler env { s with gitIgnoreMap := g } path d err).1.SubDirs =
        (handler env s path d err).1.SubDirs) ∧
    (env.ViewMode = view_mode.ViewMode.ViewModeDirs → d.IsDir = true →
      isVCSDir (filepath.Base path) = false →
      isSpecifiedDepthDirs (strings.TrimPrefix path s.currentRootDir) 1 = true →
      gitIgnoreMatches s (strings.TrimPrefix path s.currentRootDir) = true →
      handler env s path d none =
        ({ s with SubDirs := s.SubDirs ++ [strings.TrimPrefix path s.currentRootDir] },
          some fs.Error.SkipDir)) ∧
    (Scan scenario.envDepth ["/r"] init).1.SubDirs = ["/a"] := by
  have hne : ∀ (l : List String) (x : String), l ≠ l ++ [x] := by
    intro l x h
    have := congrArg List.length h
    simp at this
  have hsub : ∀ t : ScanState,
      (handler env t path d err).1.SubDirs =
        if env.ViewMode = view_mode.ViewMode.ViewModeDirs ∧ d.IsDir = true ∧ err = none ∧
            isVCSDir (filepath.Base path) = false ∧
            isSpecifiedDepthDirs (strings.TrimPrefix path t.currentRootDir) 1 = true then
          t.SubDirs ++ [strings.TrimPrefix path t.currentRootDir]
        else t.SubDirs := by
    intro t
    cases err with
    | some e => simp [handler_err]
    | none =>
      cases hd : d.IsDir with
      | false =>
        rw [handler_file env t path d hd]
        cases passes env t path <;> simp [dispatch]
      | true =>
        rw [handler_dir env t path d hd]
        cases hv : isVCSDir (filepath.Base path) with
        | true => simp
        | false =>
          simp only [Bool.false_eq_true, if_false, capture, true_and]
          split <;> rfl
  refine ⟨?_, ?_, ?_, ?_, ?_, by decide⟩
  · rw [hsub s]
    split
    · rename_i h
      simp [h]
    · rename_i h
      constructor
      · intro h'
        exact absurd h' (hne _ _)
      · intro h'
        exact absurd h' h
  · intro h
    rw [hsub s] at h ⊢
    split
    · rename_i h'
      rw [if_pos h'] at h
      exact absurd rfl h
    · rfl
  · rw [isSpecifiedDepthDirs_iff]
    exact Int.ofNat_inj
  · intro g
    rw [hsub s, hsub { s with gitIgnoreMap := g }]
  · intro hm hd hv hdepth hgi
    rw [handler_dir env s path d hd, hv, hgi]
    simp [capture, hm, hdepth]

/-- C14, at an input: in directory-summary mode the directory `/r/a` under the
root `/r`, ignored by the ignore file of the root, is captured and pruned. -/
theorem handler_captures_depth_one_witness :
    scenario.envDepth.ViewMode = view_mode.ViewMode.ViewModeDirs ∧
    isVCSDir (filepath.Base "/r/a") = false ∧
    isSpecifiedDepthDirs
      (strings.TrimPrefix "/r/a" scenario.allIgnoredInR.currentRootDir) 1 = true ∧
    gitIgnoreMatches scenario.allIgnoredInR
      (strings.TrimPrefix "/r/a" scenario.allIgnoredInR.currentRootDir) = true ∧
    handler scenario.envDepth scenario.allIgnoredInR "/r/a" ⟨"a", true⟩ none =
      ({ scenario.allIgnoredInR with
          SubDirs := scenario.allIgnoredInR.SubDirs ++
            [strings.TrimPrefix "/r/a" scenario.allIgnoredInR.currentRootDir] },
        some fs.Error.SkipDir) :=
  ⟨rfl, by decide, by decide, by decide,
   (handler_captures_depth_one scenario.envDepth scenario.allIgnoredInR "/r/a"
      ⟨"a", true⟩ none).2.2.2.2.1 rfl rfl (by decide) (by decide) (by decide)⟩

/-- C15: per-file errors are isolated. When the code-file handle of a file
entry cannot be created, whether or not the entry passes the filters,
`handler` returns nil and leaves the state as it was: the file is not handed to
`language.AddLanguage` and the seen-path index is unchanged; the walk of the
directory goes on with the next entry. In a root whose files cannot be
opened, nothing is dispatched and `Scan` ends without error. -/
theorem handler_codefile_error_skips (env : Env) (s : ScanState) (path : String)
    (d : fs.DirEntry) (hd : d.IsDir = false)
    (herr : ∃ e, file.NewCodeFile env path = .error e) :
    handler env s path d none = (s, none) ∧
    (handler env s path d none).1.AddLanguage = s.AddLanguage ∧
    (handler env s path d none).1.uniqueDirSet = s.uniqueDirSet ∧
    (∀ (dir name : String) (rest : List FsNode), filepath.Join dir name = path →
      walkEntries env dir (FsNode.file name :: rest) s = walkEntries env dir rest s) ∧
    (Scan scenario.envUnreadable ["/r"] init).1.dispatched = [] ∧
    (Scan scenario.envUnreadable ["/r"] init).2 = none := by
  have hnew : env.newCodeFileErr path ≠ none := by
    obtain ⟨e, he⟩ := herr
    unfold file.NewCodeFile at he
    intro h
    rw [h] at he
    exact absurd he (by simp)
  have hh : ∀ d' : fs.DirEntry, d'.IsDir = false → handler env s path d' none = (s, none) := by
    intro d' hd'
    rw [handler_file env s path d' hd']
    have hp : passes env s path = false := by
      cases h : passes env s path with
      | false => rfl
      | true => exact absurd ((passes_iff env s path).1 h).2.2.2.2.2 hnew
    simp [hp]
  refine ⟨hh d hd, by rw [hh d hd], by rw [hh d hd], ?_, by decide, by decide⟩
  intro dir name rest hjoin
  simp only [walkEntries, walkDir, FsNode.name]
  rw [hjoin, hh ⟨name, false⟩ rfl]

/-- C15, at an input: `/r/a.go` passes every filter (no pattern, no ignore
file, supported extension, not seen), but cannot be opened. -/
theorem handler_codefile_error_skips_witness :
    (⟨"a.go", false⟩ : fs.DirEntry).IsDir = false ∧
    (∃ e, file.NewCodeFile scenario.envUnreadable "/r/a.go" = .error e) ∧
    passes scenario.envFiles { init with currentRootDir := "/r" } "/r/a.go" = true ∧
    handler scenario.envUnreadable { init with currentRootDir := "/r" } "/r/a.go"
      ⟨"a.go", false⟩ none = ({ init with currentRootDir := "/r" }, none) :=
  ⟨rfl, ⟨"open: permission denied", rfl⟩, by decide,
   (handler_codefile_error_skips scenario.envUnreadable { init with currentRootDir := "/r" }
      "/r/a.go" ⟨"a.go", false⟩ rfl ⟨"open: permission denied", rfl⟩).1⟩

/-- C16: for an entry the walk reports with a filesystem error, `handler`
returns that error at once and leaves the state as it was: nothing is
dispatched or captured and the seen-path index is unchanged. The error then
ends the walk and `Scan`: a directory that cannot be read is not entered, an
error from an entry ends the loop over the entries of its directory and the
walk of that directory, a root that cannot be examined or whose walk ends with
an error ends `Scan` with that error, and no later root is walked. Scenarios:
the root `/r` holds the unreadable directory `locked` before `z.go`, and the
root `/missing` does not exist; neither `z.go` nor the files of a later root
are dispatched. -/
theorem walk_error_aborts_scan (env : Env) (s : ScanState) (path : String)
    (d : fs.DirEntry) (e : fs.Error) :
    handler env s path d (some e) = (s, some e) ∧
    (∀ (name msg : String) (children : List FsNode),
      (handler env s path ⟨name, true⟩ none).2 = none →
      walkDir env path (.dir name (some msg) children) s =
        ((handler env s path ⟨name, true⟩ none).1, some (fs.Error.other msg))) ∧
    (∀ (d1 : FsNode) (rest : List FsNode) (s1 : ScanState) (msg : String),
      walkDir env (filepath.Join path d1.name) d1 s = (s1, some (fs.Error.other msg)) →
      walkEntries env path (d1 :: rest) s = (s1, some (fs.Error.other msg))) ∧
    (∀ (name : String) (children : List FsNode) (s1 : ScanState) (msg : String),
      (handler env s path ⟨name, true⟩ none).2 = none →
      walkEntries env path children (handler env s path ⟨name, true⟩ none).1 =
        (s1, some (fs.Error.other msg)) →
      walkDir env path (.dir name none children) s = (s1, some (fs.Error.other msg))) ∧
    (∀ msg : String, env.Lstat path = .error msg →
      WalkDir env path s = (s, some (fs.Error.other msg))) ∧
    (∀ (node : FsNode) (s1 : ScanState) (msg : String), env.Lstat path = .ok node →
      walkDir env path node s = (s1, some (fs.Error.other msg)) →
      WalkDir env path s = (s1, some (fs.Error.other msg))) ∧
    (∀ (rest : List String) (s1 : ScanState) (err : fs.Error),
      WalkDir env path (addGitIgnorePatterns env { s with currentRootDir := path } path) =
        (s1, some err) →
      Scan env (path :: rest) s = (s1, some err)) ∧
    ((Scan scenario.envLocked ["/r", "/q"] init).2 =
        some (fs.Error.other "open /r/locked: permission denied") ∧
      (Scan scenario.envLocked ["/r", "/q"] init).1.dispatched = [] ∧
      (Scan scenario.envLocked ["/q"] init).1.dispatched = ["/q/q.go"] ∧
      (Scan scenario.envLocked ["/missing", "/q"] init).2 =
        some (fs.Error.other "lstat: no such file or directory") ∧
      (Scan scenario.envLocked ["/missing", "/q"] init).1.dispatched = []) := by
  refine ⟨rfl, ?_, ?_, ?_, ?_, ?_, ?_, by decide⟩
  · intro name msg children h
    simp only [walkDir]
    rcases hh : handler env s path ⟨name, true⟩ none with ⟨s1, _ | e1⟩
    · simp [handler_err]
    · rw [hh] at h
      exact absurd h (by simp)
  · intro d1 rest s1 msg h
    simp only [walkEntries]
    rw [h]
    simp
  · intro name children s1 msg h hw
    simp only [walkDir]
    rcases hh : handler env s path ⟨name, true⟩ none with ⟨s2, _ | e1⟩
    · rw [hh] at hw
      exact hw
    · rw [hh] at h
      exact absurd h (by simp)
  · intro msg h
    unfold WalkDir
    rw [h]
    simp [handler_err]
  · intro node s1 msg h hw
    unfold WalkDir
    rw [h]
    simp only
    rw [hw]
    simp
  · intro rest s1 err h
    simp only [Scan]
    rw [h]

/-- C16, at an input: the root `/missing` cannot be examined, and its walk ends
with that error. -/
theorem walk_error_aborts_scan_witness :
    scenario.envLocked.Lstat "/missing" = .error "lstat: no such file or directory" ∧
    WalkDir scenario.envLocked "/missing" init =
      (init, some (fs.Error.other "lstat: no such file or directory")) :=
  ⟨rfl,
   (walk_error_aborts_scan scenario.envLocked init "/missing" ⟨"missing", true⟩
      fs.Error.SkipAll).2.2.2.2.1 "lstat: no such file or directory" rfl⟩

/-- C17: the seen-path index holds exactly the dispatched paths. Starting from
the initial state, after any sequence of calls of `handler`, whatever the
entries, roots, patterns, ignore files and collaborators of each call, a path
is in the index if and only if it was handed to `language.AddLanguage`, and it
is then the path of a non-directory entry of one of the calls; a further call
never removes a path, changes nothing in the index on a directory entry, and
leaves the index unchanged when it dispatches nothing. The same equivalence
holds after every run of `Scan`. -/
theorem seen_index_is_dispatched (calls : List Call) (p : String) :
    ((runCalls init calls).uniqueDirSet.Contains p = true ↔
      p ∈ (runCalls init calls).dispatched) ∧
    ((runCalls init calls).uniqueDirSet.Contains p = true →
      ∃ c ∈ calls, c.path = p ∧ c.d.IsDir = false ∧ c.err = none) ∧
    (∀ c : Call, (runCalls init calls).uniqueDirSet.Contains p = true →
      (c.run (runCalls init calls)).uniqueDirSet.Contains p = true) ∧
    (∀ c : Call, c.d.IsDir = true →
      (c.run (runCalls init calls)).uniqueDirSet = (runCalls init calls).uniqueDirSet) ∧
    (∀ c : Call, (c.run (runCalls init calls)).dispatched = (runCalls init calls).dispatched →
      (c.run (runCalls init calls)).uniqueDirSet = (runCalls init calls).uniqueDirSet) ∧
    (∀ (env : Env) (roots : List String) (ms is : List regexp.Regexp),
      ((Scan env roots { init with matchRegex := ms, ignoreRegex := is }).1.uniqueDirSet.Contains
          p = true ↔
        p ∈ (Scan env roots { init with matchRegex := ms, ignoreRegex := is }).1.dispatched)) := by
  have hinv : IndexInv (runCalls init calls) := runCalls_IndexInv calls init rfl
  have hiff : (runCalls init calls).uniqueDirSet.Contains p = true ↔
      p ∈ (runCalls init calls).dispatched := by
    rw [Contains_iff, hinv]
  refine ⟨hiff, fun h => runCalls_dispatched_from calls p (hiff.1 h), ?_, ?_, ?_, ?_⟩
  · intro c h
    rcases Call_run_cases (runCalls init calls) c with ⟨_, _, _, hu⟩ | ⟨_, hu⟩
    · rw [hu, Contains_Add]
      exact Or.inr h
    · rw [hu]
      exact h
  · intro c hd
    rcases Call_run_cases (runCalls init calls) c with ⟨hd', _, _, _⟩ | ⟨_, hu⟩
    · rw [hd] at hd'
      exact absurd hd' (by decide)
    · exact hu
  · intro c hsame
    rcases Call_run_cases (runCalls init calls) c with ⟨_, _, hdis, _⟩ | ⟨_, hu⟩
    · rw [hdis] at hsame
      have := congrArg List.length hsame
      simp at this
    · exact hu
  · intro env roots ms is
    have h := Scan_keeps env IndexInv (fun s path d err => handler_IndexInv env s path d err)
      (fun s root g hs => hs) roots { init with matchRegex := ms, ignoreRegex := is } rfl
    rw [Contains_iff, h]

/-- C17, at an input: after the file `/r/a.go` was dispatched, a call on a
directory entry, even one at the same path, leaves the index as it is. -/
theorem seen_index_is_dispatched_witness :
    (⟨"a.go", true⟩ : fs.DirEntry).IsDir = true ∧
    (runCalls init
      [⟨scenario.envFiles, "/r", [], [], fun _ => none, "/r/a.go", ⟨"a.go", false⟩,
        none⟩]).uniqueDirSet = ⟨["/r/a.go"]⟩ ∧
    (Call.run
      (runCalls init
        [⟨scenario.envFiles, "/r", [], [], fun _ => none, "/r/a.go", ⟨"a.go", false⟩, none⟩])
      ⟨scenario.envFiles, "/r", [], [], fun _ => none, "/r/b", ⟨"b", true⟩,
        none⟩).uniqueDirSet =
      (runCalls init
        [⟨scenario.envFiles, "/r", [], [], fun _ => none, "/r/a.go", ⟨"a.go", false⟩,
          none⟩]).uniqueDirSet :=
  ⟨rfl, by decide,
   (seen_index_is_dispatched
      [⟨scenario.envFiles, "/r", [], [], fun _ => none, "/r/a.go", ⟨"a.go", false⟩, none⟩]
      "/r/a.go").2.2.2.1
     ⟨scenario.envFiles, "/r", [], [], fun _ => none, "/r/b", ⟨"b", true⟩, none⟩ rfl⟩

/-- C18, the code at the input to settle: under the root `.` the walk reports
the file `.hidden/x.go` at the path `.hidden/x.go`, and `handler` cuts the
leading dot of the entry instead of the root: it tests `hidden/x.go`, which is
neither the relative path nor the relative path after a separator. So the
directory `.hidden` is captured as `hidden`, and the file is dispatched in
spite of an ignore pattern for `.hidden/`. With the root `./r` nothing is cut
from the path `r/a` the walk reports. -/
theorem cut_root_dot_hidden :
    filepath.Join "." ".hidden/x.go" = ".hidden/x.go" ∧
    strings.TrimPrefix (filepath.Join "." ".hidden/x.go") "." = "hidden/x.go" ∧
    strings.TrimPrefix (filepath.Join "." ".hidden/x.go") "." ≠ ".hidden/x.go" ∧
    strings.TrimPrefix (filepath.Join "." ".hidden/x.go") "." ≠ "/.hidden/x.go" ∧
    (Scan scenario.envHidden ["."] init).1.SubDirs = ["hidden"] ∧
    scenario.hiddenRe.MatchString ".hidden/x.go" = true ∧
    (Scan scenario.envHidden ["."]
      { init with ignoreRegex := [scenario.hiddenRe] }).1.dispatched = [".hidden/x.go"] ∧
    strings.TrimPrefix (filepath.Join "./r" "a") "./r" = "r/a" := by
  decide

/-- C19: the loop of `isSpecifiedDepthDirs` ends on every path: one iteration
more than the length of the path is enough for it to break, whatever was
collected before, and more iterations give the same result; every iteration
that does not break goes on with a strictly shorter path, the directory part
without its trailing separator. So `isSpecifiedDepthDirs` returns on the paths
`a//b`, `//a` and `a/` as well. -/
theorem isSpecifiedDepthDirs_terminates (path : String) (segments : List String) :
    (depthLoop (path.data.length + 1) path segments).isSome = true ∧
    (∀ fuel, path.data.length < fuel →
      depthLoop fuel path segments = depthLoop (path.data.length + 1) path segments) ∧
    (¬((filepath.Split path).1 = "/" ∨ (filepath.Split path).1 = "") →
      (if strings.HasSuffix (filepath.Split path).1 "/" then
          strings.TrimSuffix (filepath.Split path).1 "/"
        else (filepath.Split path).1).data.length < path.data.length) ∧
    (depthLoop 5 "a//b" [] = some ["b", "a"] ∧ isSpecifiedDepthDirs "a//b" 2 = true ∧
      depthLoop 4 "//a" [] = some ["a"] ∧ isSpecifiedDepthDirs "//a" 1 = true ∧
      depthLoop 3 "a/" [] = some ["a"] ∧ isSpecifiedDepthDirs "a/" 1 = true) := by
  refine ⟨depthLoop_isSome _ path segments (Nat.lt_succ_self _), ?_,
    depthLoop_shorter path, by decide⟩
  intro fuel hfuel
  rw [depthLoop_eq fuel path segments hfuel,
    depthLoop_eq (path.data.length + 1) path segments (Nat.lt_succ_self _)]

/-- C19, at an input: on `a//b` the first iteration does not break and goes on
with the shorter path `a/`. -/
theorem isSpecifiedDepthDirs_terminates_witness :
    ¬((filepath.Split "a//b").1 = "/" ∨ (filepath.Split "a//b").1 = "") ∧
    (if strings.HasSuffix (filepath.Split "a//b").1 "/" then
        strings.TrimSuffix (filepath.Split "a//b").1 "/"
      else (filepath.Split "a//b").1) = "a/" ∧
    (if strings.HasSuffix (filepath.Split "a//b").1 "/" then
        strings.TrimSuffix (filepath.Split "a//b").1 "/"
      else (filepath.Split "a//b").1).data.length < ("a//b" : String).data.length :=
  ⟨by decide, by decide,
   (isSpecifiedDepthDirs_terminates "a//b" []).2.2.1 (by decide)⟩

end scanner

namespace output

/-- C20: `Output` selects the renderer totally. For every format string it
invokes exactly one renderer: the JSON renderer if and only if the string is
exactly `json`, and the table renderer otherwise, that is for `table` and for
every other string, the empty one included. -/
theorem Output_selects (outputFormat : String) :
    (Output outputFormat).length = 1 ∧
    (Output outputFormat = [Renderer.OutputJson] ↔ outputFormat = "json") ∧
    (outputFormat ≠ "json" → Output outputFormat = [Renderer.OutputCliTable]) ∧
    Output "table" = [Renderer.OutputCliTable] ∧
    Output "" = [Renderer.OutputCliTable] ∧
    Output "JSON" = [Renderer.OutputCliTable] := by
  have hj : OutputFormatJSON = "json" := rfl
  have ht : OutputFormatTable = "table" := rfl
  have htj : ("json" : String) ≠ "table" := by decide
  refine ⟨?_, ?_, ?_, by decide, by decide, by decide⟩
  · unfold Output
    split
    · rfl
    · split <;> rfl
  · unfold Output
    rw [hj, ht]
    constructor
    · intro h
      by_cases h1 : outputFormat = "table"
      · simp [h1] at h
      · by_cases h2 : outputFormat = "json"
        · exact h2
        · simp [h1, h2] at h
    · intro h
      subst h
      simp [htj]
  · intro h
    unfold Output
    rw [hj]
    simp [h]

/-- C20, at an input: the format `yaml` is not `json`, so the table renderer
is invoked. -/
theorem Output_selects_witness :
    ("yaml" : String) ≠ "json" ∧ Output "yaml" = [Renderer.OutputCliTable] :=
  ⟨by decide, (Output_selects "yaml").2.2.1 (by decide)⟩

end output
